import Mathlib

/-!
Verification of the storage-stack core of the bustub-lineage repository:
shallow embeddings of the lock manager, the LRU-K replacer, the buffer pool
manager and the B+ tree index, together with theorems settling the frozen
claims about them.  Every definition mirrors the corresponding C++ function
of the repository; section comments name the source file and lines.
-/

namespace bustub

/-! ### Lock manager data model (src/concurrency/lock_manager.cpp) -/

/-- The five lock modes of `LockManager::LockMode`. -/
inductive LockMode
  | IS | IX | S | SIX | X
  deriving DecidableEq, Repr

/-- `IsolationLevel` from `concurrency/transaction.h`. -/
inductive IsolationLevel
  | ReadUncommitted | ReadCommitted | RepeatableRead
  deriving DecidableEq, Repr

/-- `TransactionState` from `concurrency/transaction.h`. -/
inductive TransactionState
  | Growing | Shrinking | Committed | Aborted
  deriving DecidableEq, Repr

/-- `AbortReason` values thrown by the lock manager. -/
inductive AbortReason
  | LockOnShrinking
  | LockSharedOnReadUncommitted
  | UpgradeConflict
  | IncompatibleUpgrade
  | TableLockNotPresent
  | AttemptedIntentionLockOnRow
  | AttemptedUnlockButNoLockHeld
  | TableUnlockedBeforeUnlockingRows
  deriving DecidableEq, Repr

/-- A row identifier (page id, slot number), standing for `RID`. -/
abbrev Rid := Nat × Nat

/-- The transaction fields the lock-manager code reads and writes:
id, isolation level, state, the five per-mode table lock sets and the
two per-mode row lock sets (keyed by table oid). -/
structure Transaction where
  txnId : Int
  isolation : IsolationLevel
  state : TransactionState
  sharedTableLockSet : List Nat := []
  exclusiveTableLockSet : List Nat := []
  intentionSharedTableLockSet : List Nat := []
  intentionExclusiveTableLockSet : List Nat := []
  sharedIntentionExclusiveTableLockSet : List Nat := []
  sharedRowLockSet : List (Nat × List Rid) := []
  exclusiveRowLockSet : List (Nat × List Rid) := []
  deriving DecidableEq, Repr

/-- `Transaction::IsTableSharedLocked`. -/
def Transaction.IsTableSharedLocked (t : Transaction) (oid : Nat) : Bool :=
  t.sharedTableLockSet.contains oid

/-- `Transaction::IsTableExclusiveLocked`. -/
def Transaction.IsTableExclusiveLocked (t : Transaction) (oid : Nat) : Bool :=
  t.exclusiveTableLockSet.contains oid

/-- `Transaction::IsTableIntentionSharedLocked`. -/
def Transaction.IsTableIntentionSharedLocked (t : Transaction) (oid : Nat) : Bool :=
  t.intentionSharedTableLockSet.contains oid

/-- `Transaction::IsTableIntentionExclusiveLocked`. -/
def Transaction.IsTableIntentionExclusiveLocked (t : Transaction) (oid : Nat) : Bool :=
  t.intentionExclusiveTableLockSet.contains oid

/-- `Transaction::IsTableSharedIntentionExclusiveLocked`. -/
def Transaction.IsTableSharedIntentionExclusiveLocked (t : Transaction) (oid : Nat) : Bool :=
  t.sharedIntentionExclusiveTableLockSet.contains oid

/-- Setting the transaction state, as `txn->SetState(...)`. -/
def Transaction.setState (t : Transaction) (s : TransactionState) : Transaction :=
  { t with state := s }

/-- A lock request `(txn_id, mode, oid, rid, granted)` as in
`LockManager::LockRequest`. -/
structure LockRequest where
  txnId : Int
  mode : LockMode
  oid : Nat
  rid : Rid := (0, 0)
  granted : Bool := false
  deriving DecidableEq, Repr

/-- Lookup in an association list (the shape of `std::unordered_map` uses
in the embedded code). -/
def alistLookup {α β : Type} [DecidableEq α] (l : List (α × β)) (a : α) : Option β :=
  match l with
  | [] => none
  | (k, v) :: rest => if k = a then some v else alistLookup rest a

/-- Update / insert in an association list. -/
def alistInsert {α β : Type} [DecidableEq α] (l : List (α × β)) (a : α) (b : β) :
    List (α × β) :=
  match l with
  | [] => [(a, b)]
  | (k, v) :: rest => if k = a then (a, b) :: rest else (k, v) :: alistInsert rest a b

/-- Erase a key from an association list. -/
def alistErase {α β : Type} [DecidableEq α] (l : List (α × β)) (a : α) :
    List (α × β) :=
  match l with
  | [] => []
  | (k, v) :: rest => if k = a then rest else (k, v) :: alistErase rest a

/-- `ModifyTableLockSet<Delete>` (lock_manager.cpp lines 25-66): remove the
request's oid from the per-mode table lock set of its mode. -/
def ModifyTableLockSetDelete (txn : Transaction) (lr : LockRequest) : Transaction :=
  match lr.mode with
  | .S => { txn with sharedTableLockSet := txn.sharedTableLockSet.erase lr.oid }
  | .X => { txn with exclusiveTableLockSet := txn.exclusiveTableLockSet.erase lr.oid }
  | .IS => { txn with intentionSharedTableLockSet := txn.intentionSharedTableLockSet.erase lr.oid }
  | .IX => { txn with intentionExclusiveTableLockSet := txn.intentionExclusiveTableLockSet.erase lr.oid }
  | .SIX => { txn with sharedIntentionExclusiveTableLockSet := txn.sharedIntentionExclusiveTableLockSet.erase lr.oid }

/-- `ModifyRowLockSet<Delete>` (lock_manager.cpp lines 69-93): remove the rid
from the per-mode row lock set; intention modes touch nothing. -/
def ModifyRowLockSetDelete (txn : Transaction) (lr : LockRequest) : Transaction :=
  match lr.mode with
  | .S =>
    let cur := ((alistLookup txn.sharedRowLockSet lr.oid).getD []).erase lr.rid
    { txn with sharedRowLockSet := alistInsert txn.sharedRowLockSet lr.oid cur }
  | .X =>
    let cur := ((alistLookup txn.exclusiveRowLockSet lr.oid).getD []).erase lr.rid
    { txn with exclusiveRowLockSet := alistInsert txn.exclusiveRowLockSet lr.oid cur }
  | .IS | .IX | .SIX => txn

/-- `CheckIsolation` (lock_manager.cpp lines 120-153): the isolation-level
gating run before a table or row lock request; throwing paths return the
aborted transaction together with the abort reason. -/
def CheckIsolation (txn : Transaction) (mode : LockMode) :
    Except (Transaction × AbortReason) Transaction :=
  match txn.isolation with
  | .ReadUncommitted =>
    if mode = .S ∨ mode = .IS ∨ mode = .SIX then
      .error (txn.setState .Aborted, .LockSharedOnReadUncommitted)
    else if txn.state = .Shrinking ∧ (mode = .X ∨ mode = .IX) then
      .error (txn.setState .Aborted, .LockOnShrinking)
    else .ok txn
  | .ReadCommitted =>
    if txn.state = .Shrinking ∧ mode ≠ .S ∧ mode ≠ .IS then
      .error (txn.setState .Aborted, .LockOnShrinking)
    else .ok txn
  | .RepeatableRead =>
    if txn.state = .Shrinking then
      .error (txn.setState .Aborted, .LockOnShrinking)
    else .ok txn

/-- `CheckLockRow` (lock_manager.cpp lines 221-239): the table-intent check a
row lock request runs.  Exclusive row locks require X, IX or SIX on the
table; shared row locks check nothing; intention modes on rows always abort. -/
def CheckLockRow (txn : Transaction) (mode : LockMode) (oid : Nat) :
    Except (Transaction × AbortReason) Transaction :=
  match mode with
  | .X =>
    if ¬txn.IsTableExclusiveLocked oid ∧ ¬txn.IsTableIntentionExclusiveLocked oid ∧
        ¬txn.IsTableSharedIntentionExclusiveLocked oid then
      .error (txn.setState .Aborted, .TableLockNotPresent)
    else .ok txn
  | .S => .ok txn
  | .IX | .IS | .SIX =>
    .error (txn.setState .Aborted, .AttemptedIntentionLockOnRow)

/-- The pre-queue part of `LockManager::LockRow` (lock_manager.cpp lines
351-359): refuse committed/aborted transactions (returning `none`, i.e.
`false` without abort), then run `CheckIsolation` and `CheckLockRow`. -/
def LockRowPrecheck (txn : Transaction) (mode : LockMode) (oid : Nat) :
    Except (Transaction × AbortReason) (Option Transaction) :=
  if txn.state = .Committed ∨ txn.state = .Aborted then .ok none
  else
    match CheckIsolation txn mode with
    | .error e => .error e
    | .ok txn₁ =>
      match CheckLockRow txn₁ mode oid with
      | .error e => .error e
      | .ok txn₂ => .ok (some txn₂)

/-- The switch on the isolation level run by both `UnlockTable`
(lock_manager.cpp lines 328-340) and non-force `UnlockRow` (lines 438-450):
RepeatableRead enters Shrinking on releasing S or X; ReadCommitted and
ReadUncommitted only on releasing X. -/
def UnlockStateTransition (txn : Transaction) (mode : LockMode) : Transaction :=
  match txn.isolation with
  | .RepeatableRead =>
    if mode = .S ∨ mode = .X then txn.setState .Shrinking else txn
  | .ReadCommitted | .ReadUncommitted =>
    if mode = .X then txn.setState .Shrinking else txn

/-- Whether the transaction still holds row locks on `oid`
(the guard of `UnlockTable`, lock_manager.cpp lines 305-311). -/
def HasRowLocksOn (txn : Transaction) (oid : Nat) : Bool :=
  (match alistLookup txn.sharedRowLockSet oid with
   | none => false
   | some l => ¬l.isEmpty) ||
  (match alistLookup txn.exclusiveRowLockSet oid with
   | none => false
   | some l => ¬l.isEmpty)

/-- The queue scan of `UnlockTable` (lock_manager.cpp lines 325-348): find the
first granted request of this transaction, apply the state transition,
remove it from the queue; abort when none exists. -/
def UnlockTableScan (txn : Transaction) (queue : List LockRequest) :
    Except (Transaction × AbortReason) (Transaction × List LockRequest) :=
  match queue with
  | [] => .error (txn.setState .Aborted, .AttemptedUnlockButNoLockHeld)
  | lr :: rest =>
    if lr.granted ∧ lr.txnId = txn.txnId then
      .ok (ModifyTableLockSetDelete (UnlockStateTransition txn lr.mode) lr, rest)
    else
      match UnlockTableScan txn rest with
      | .error e => .error e
      | .ok (txn', rest') => .ok (txn', lr :: rest')

/-- `LockManager::UnlockTable` (lock_manager.cpp lines 299-349), with the
request queue of the oid passed explicitly (`none` models the oid being
absent from `table_lock_map_`). -/
def UnlockTable (txn : Transaction) (oid : Nat) (queue : Option (List LockRequest)) :
    Except (Transaction × AbortReason) (Transaction × List LockRequest) :=
  if HasRowLocksOn txn oid then
    .error (txn.setState .Aborted, .TableUnlockedBeforeUnlockingRows)
  else
    match queue with
    | none => .error (txn.setState .Aborted, .AttemptedUnlockButNoLockHeld)
    | some q => UnlockTableScan txn q

/-- The queue scan of `UnlockRow` (lock_manager.cpp lines 434-459): find the
first granted request of this transaction, apply the state transition unless
`force`, remove it from queue and row lock set; abort when none exists. -/
def UnlockRowScan (txn : Transaction) (force : Bool) (queue : List LockRequest) :
    Except (Transaction × AbortReason) (Transaction × List LockRequest) :=
  match queue with
  | [] => .error (txn.setState .Aborted, .AttemptedUnlockButNoLockHeld)
  | lr :: rest =>
    if lr.granted ∧ lr.txnId = txn.txnId then
      .ok (ModifyRowLockSetDelete
             (if force then txn else UnlockStateTransition txn lr.mode) lr, rest)
    else
      match UnlockRowScan txn force rest with
      | .error e => .error e
      | .ok (txn', rest') => .ok (txn', lr :: rest')

/-- `LockManager::UnlockRow` (lock_manager.cpp lines 421-460), with the
request queue of the rid passed explicitly (`none` models the rid being
absent from `row_lock_map_`). -/
def UnlockRow (txn : Transaction) (force : Bool) (queue : Option (List LockRequest)) :
    Except (Transaction × AbortReason) (Transaction × List LockRequest) :=
  match queue with
  | none => .error (txn.setState .Aborted, .AttemptedUnlockButNoLockHeld)
  | some q => UnlockRowScan txn force q

/-! ### LRU-K replacer (src/buffer/lru_k_replacer.cpp) -/

/-- A replacer node: frame id, number of recorded accesses (`k_`), access
history (timestamps, oldest first: `push_back` appends) and the evictable
flag.  The node header is not under src/; the fields are modelled from the
spec's replacer-node description and from how lru_k_replacer.cpp uses them
(a fresh node records one access, and insertion touches no evictable
counter, so a fresh node is non-evictable). -/
structure LRUKNode where
  fid : Nat
  k : Nat
  history : List Nat
  isEvictable : Bool := false
  deriving DecidableEq, Repr

/-- The oldest of the node's recorded timestamps (`*history_.begin()`). -/
def LRUKNode.oldest (n : LRUKNode) : Nat := n.history.headD 0

/-- Replacer state: `fifo_dl_` (history cohort, front = most recently
inserted since `push_front` is used), `lru_dl_` (cache cohort, kept in
descending order of oldest-of-last-K timestamp from the front), the two
evictable counters, the clock and the configuration.  `node_store_` is
represented by membership of a frame id in one of the two lists. -/
structure LRUKReplacer where
  fifo : List LRUKNode := []
  lru : List LRUKNode := []
  replacerSize : Nat
  k : Nat
  currentTimestamp : Nat := 0
  evictableCntFifo : Nat := 0
  evictableCntLru : Nat := 0
  currSize : Nat := 0
  deriving DecidableEq, Repr

/-- The reverse scan of `Evict` (lines 42-55 and 59-73): walk a cohort from
its tail (`rbegin`) toward the head and unlink the first evictable node. -/
def evictScan : List LRUKNode → Option (Nat × List LRUKNode)
  | [] => none
  | n :: rest =>
    match evictScan rest with
    | some (f, rest') => some (f, n :: rest')
    | none => if n.isEvictable then some (n.fid, rest) else none

/-- `LRUKReplacer::Evict` (lines 27-78): nothing to do on two empty cohorts;
otherwise try the history cohort tail-first when it holds an evictable
node, then the cache cohort tail-first; remove the victim and decrement
the counters. -/
def LRUKReplacer.Evict (s : LRUKReplacer) : Option Nat × LRUKReplacer :=
  if s.fifo.isEmpty ∧ s.lru.isEmpty then (none, s)
  else
    match (if s.evictableCntFifo > 0 then evictScan s.fifo else none) with
    | some (f, fifo') =>
      (some f, { s with fifo := fifo', evictableCntFifo := s.evictableCntFifo - 1,
                        currSize := s.currSize - 1 })
    | none =>
      match (if s.evictableCntLru > 0 then evictScan s.lru else none) with
      | some (f, lru') =>
        (some f, { s with lru := lru', evictableCntLru := s.evictableCntLru - 1,
                          currSize := s.currSize - 1 })
      | none => (none, s)

/-- Find the node with the given frame id in either cohort
(`node_store_.find`); `true` tags the history cohort. -/
def LRUKReplacer.findNode (s : LRUKReplacer) (fid : Nat) : Option (Bool × LRUKNode) :=
  match s.fifo.find? (fun n => n.fid = fid) with
  | some n => some (true, n)
  | none =>
    match s.lru.find? (fun n => n.fid = fid) with
    | some n => some (false, n)
    | none => none

/-- Replace the node with the given frame id, keeping its position. -/
def updateNode (l : List LRUKNode) (fid : Nat) (n : LRUKNode) : List LRUKNode :=
  l.map (fun m => if m.fid = fid then n else m)

/-- Remove the node with the given frame id. -/
def eraseNode (l : List LRUKNode) (fid : Nat) : List LRUKNode :=
  match l with
  | [] => []
  | m :: rest => if m.fid = fid then rest else m :: eraseNode rest fid

/-- The ordered insert of `RecordAccess` (lines 101-114 and 135-143): walk
`lru_dl_` from the head and place the node before the first entry whose
oldest timestamp is strictly smaller.  In the re-insertion case the C++
code inserts a copy while the updated original is still in the list and
erases the original afterwards; since the scan never breaks at a node with
an equal oldest timestamp, that is order-equivalent to erasing first and
then inserting, which is how this model sequences it. -/
def lruOrderedInsert (l : List LRUKNode) (n : LRUKNode) : List LRUKNode :=
  match l with
  | [] => [n]
  | m :: rest =>
    if m.oldest < n.oldest then n :: m :: rest else m :: lruOrderedInsert rest n

/-- `LRUKReplacer::RecordAccess` (lines 80-147).  `none` models the
`invalid frame_id` exception. -/
def LRUKReplacer.RecordAccess (s : LRUKReplacer) (fid : Nat) : Option LRUKReplacer :=
  if fid > s.replacerSize then none
  else
    let ts := s.currentTimestamp + 1
    match s.findNode fid with
    | some (inFifo, n) =>
      if n.k + 1 < s.k then
        let n' := { n with k := n.k + 1, history := n.history ++ [ts] }
        if inFifo then
          some { s with currentTimestamp := ts, fifo := updateNode s.fifo fid n' }
        else
          some { s with currentTimestamp := ts, lru := updateNode s.lru fid n' }
      else
        let n₁ := { n with k := n.k + 1, history := n.history ++ [ts] }
        let n₂ := if n₁.k > s.k then { n₁ with history := n₁.history.tail } else n₁
        if n₂.k = s.k then
          some { s with
            currentTimestamp := ts,
            fifo := eraseNode s.fifo fid,
            lru := lruOrderedInsert s.lru n₂,
            evictableCntFifo := if n.isEvictable then s.evictableCntFifo - 1 else s.evictableCntFifo,
            evictableCntLru := if n.isEvictable then s.evictableCntLru + 1 else s.evictableCntLru }
        else
          some { s with
            currentTimestamp := ts,
            lru := lruOrderedInsert (eraseNode s.lru fid) n₂ }
    | none =>
      if s.k > 1 then
        some { s with
          currentTimestamp := ts,
          fifo := ⟨fid, 1, [ts], false⟩ :: s.fifo,
          currSize := s.currSize + 1 }
      else
        some { s with
          currentTimestamp := ts,
          lru := lruOrderedInsert s.lru ⟨fid, 1, [ts], false⟩,
          currSize := s.currSize + 1 }

/-- `LRUKReplacer::SetEvictable` (lines 150-171): a no-op on unknown frames
and on an unchanged flag; otherwise flip the flag and adjust the cohort's
evictable counter. -/
def LRUKReplacer.SetEvictable (s : LRUKReplacer) (fid : Nat) (ev : Bool) : LRUKReplacer :=
  match s.findNode fid with
  | none => s
  | some (inFifo, n) =>
    if n.isEvictable = ev then s
    else
      let n' := { n with isEvictable := ev }
      let s' := if inFifo then { s with fifo := updateNode s.fifo fid n' }
                else { s with lru := updateNode s.lru fid n' }
      if n.k < s.k then
        { s' with evictableCntFifo :=
            if ev then s.evictableCntFifo + 1 else s.evictableCntFifo - 1 }
      else
        { s' with evictableCntLru :=
            if ev then s.evictableCntLru + 1 else s.evictableCntLru - 1 }

/-- `LRUKReplacer::Size` (lines 201-204). -/
def LRUKReplacer.Size (s : LRUKReplacer) : Nat :=
  s.evictableCntFifo + s.evictableCntLru

/-! ### Buffer pool manager (src/buffer/buffer_pool_manager.cpp) -/

/-- The frame metadata of `Page` that the buffer pool reads and writes
(besides the raw bytes): page id (−1 invalid), pin count and dirty bit. -/
structure Page where
  pageId : Int := -1
  pinCount : Nat := 0
  isDirty : Bool := false
  deriving DecidableEq, Repr

instance : Inhabited Page := ⟨{}⟩

/-- Buffer pool state: the frame array, the page table, the free list and
the replacer. -/
structure BufferPoolManager where
  pages : List Page
  pageTable : List (Int × Nat) := []
  freeList : List Nat := []
  replacer : LRUKReplacer
  nextPageId : Int := 0
  deriving DecidableEq, Repr

/-- `BufferPoolManager::UnpinPage(page_id_t, bool, AccessType)`
(buffer_pool_manager.cpp lines 169-195): unknown page id or zero pin count
return `false` and change nothing; otherwise the pin count is decremented,
the frame is marked evictable exactly when the pin count reaches zero, and
the dirty argument is ORed into the frame's dirty bit. -/
def BufferPoolManager.UnpinPage (s : BufferPoolManager) (pageId : Int) (isDirty : Bool) :
    Bool × BufferPoolManager :=
  match alistLookup s.pageTable pageId with
  | none => (false, s)
  | some frame =>
    let p := s.pages.getD frame default
    if p.pinCount = 0 then (false, s)
    else
      let p' := { p with pinCount := p.pinCount - 1, isDirty := p.isDirty || isDirty }
      let s' := { s with pages := s.pages.set frame p' }
      if p.pinCount - 1 = 0 then
        (true, { s' with replacer := s'.replacer.SetEvictable frame true })
      else (true, s')

/-! ### B+ tree pages (src/storage/page/b_plus_tree_leaf_page.cpp,
src/storage/page/b_plus_tree_internal_page.cpp) -/

/-- Keys are `GenericKey` over `int64`. -/
abbrev Key := Int

/-- Values are `RID`s, modelled by an integer. -/
abbrev Val := Int

/-- Page ids (`page_id_t`, an `int32`). -/
abbrev Pid := Int

/-- `INVALID_PAGE_ID` from common/config.h. -/
def INVALID_PAGE_ID : Pid := -1

/-- A physical in-page array: a total function from slot number to content.
Pages handed out by `BufferPoolManager::NewPage` are zero-filled
(`ResetMemory`), so fresh arrays are constantly `default`; slots beyond the
node's logical size keep whatever earlier operations left there, exactly as
in the C++ pages. -/
def Arr (α : Type) := Nat → α

/-- Write one slot. -/
def Arr.write {α : Type} (a : Arr α) (i : Nat) (x : α) : Arr α :=
  fun j => if j = i then x else a j

/-- The all-default (zero-filled) array. -/
def Arr.zero {α : Type} [Inhabited α] : Arr α := fun _ => default

/-- `std::copy(src + st, src + st + n, dest + desSt)` on arrays. -/
def Arr.copyFrom {α : Type} (dest : Arr α) (src : Arr α) (st n desSt : Nat) : Arr α :=
  fun j => if desSt ≤ j ∧ j < desSt + n then src (st + (j - desSt)) else dest j

/-- `std::copy_backward(a, a + sz, a + st)` within one array: the block
`[0, sz)` ends up at `[st − sz, st)`. -/
def Arr.shiftUpTo {α : Type} (a : Arr α) (sz st : Nat) : Arr α :=
  fun j => if st - sz ≤ j ∧ j < st then a (j - (st - sz)) else a j

/-- `std::copy(a + st, a + sz, a)` within one array: the block `[st, sz)`
moves down to `[0, sz − st)`. -/
def Arr.shiftDownFrom {α : Type} (a : Arr α) (sz st : Nat) : Arr α :=
  fun j => if j < sz - st then a (j + st) else a j

/-- `std::move_backward(a + first, a + last, a + last + 1)`: the block
`[first, last)` moves up by one slot, freeing slot `first`. -/
def Arr.openGap {α : Type} (a : Arr α) (first last : Nat) : Arr α :=
  fun j => if first + 1 ≤ j ∧ j ≤ last then a (j - 1) else a j

/-- The libstdc++ `std::lower_bound` binary search over slots
`[first, first + len)` of an array, with `lt x = true` meaning the slot
content is ordered before the probe.  The remaining length shrinks on
every iteration, so running the loop with `len` as (structural) fuel is
exact. -/
def lowerBoundGo {α : Type} (lt : α → Bool) (a : Arr α) : Nat → Nat → Nat → Nat
  | 0, first, _ => first
  | fuel + 1, first, len =>
    if len = 0 then first
    else
      let half := len / 2
      if lt (a (first + half)) then
        lowerBoundGo lt a fuel (first + half + 1) (len - half - 1)
      else
        lowerBoundGo lt a fuel first half

/-- `std::lower_bound` over `[first, first + len)`. -/
def lowerBoundLoop {α : Type} (lt : α → Bool) (a : Arr α) (first len : Nat) : Nat :=
  lowerBoundGo lt a len first len

/-- Modelled from the spec: `BPlusTreePage::GetMinSize` lives in
b_plus_tree_page.cpp, which is not under src/; the spec fixes the minimum
occupancy of both node kinds at ⌈max/2⌉ (root excepted). -/
def minSizeOf (maxSize : Nat) : Nat := (maxSize + 1) / 2

/-- A leaf page: header (`maxSize`, `size`), the physical entry array and
`next_page_id_`. -/
structure LeafPage where
  maxSize : Nat
  size : Nat
  arr : Arr (Key × Val)
  next : Pid

/-- An internal page: header and the physical `(key, child pid)` array;
slot 0's key is the unused slot. -/
structure InternalPage where
  maxSize : Nat
  size : Nat
  arr : Arr (Key × Pid)

/-- `BPlusTreeLeafPage::Init` on a freshly allocated (zero-filled) page. -/
def LeafPage.init (maxSize : Nat) : LeafPage :=
  ⟨maxSize, 0, Arr.zero, INVALID_PAGE_ID⟩

/-- `BPlusTreeInternalPage::Init` on a freshly allocated page. -/
def InternalPage.init (maxSize : Nat) : InternalPage :=
  ⟨maxSize, 0, Arr.zero⟩

/-- `BPlusTreeLeafPage::KeyAt`. -/
def LeafPage.KeyAt (p : LeafPage) (i : Nat) : Key := (p.arr i).1

/-- `BPlusTreeLeafPage::GetIndex`: `std::lower_bound` over the live
entries, comparing keys with the `GenericComparator` order on `int64`. -/
def LeafPage.GetIndex (p : LeafPage) (key : Key) : Nat :=
  lowerBoundLoop (fun e => decide (e.1 < key)) p.arr 0 p.size

/-- `BPlusTreeLeafPage::Exist`: the found flag together with the value
(when present) and the computed index output parameter. -/
def LeafPage.Exist (p : LeafPage) (key : Key) : Option Val × Nat :=
  let t := p.GetIndex key
  if t = p.size ∨ (p.arr t).1 ≠ key then (none, t)
  else (some (p.arr t).2, t)

/-- `BPlusTreeLeafPage::Insert` (leaf page lines 79-103). -/
def LeafPage.Insert (p : LeafPage) (key : Key) (v : Val) : Bool × LeafPage :=
  if p.size = p.maxSize then (false, p)
  else
    let index := p.GetIndex key
    if index = p.size then
      (true, { p with size := p.size + 1, arr := p.arr.write index (key, v) })
    else if (p.arr index).1 = key then (false, p)
    else
      (true, { p with size := p.size + 1,
                      arr := (p.arr.openGap index (p.size + 1)).write index (key, v) })

/-- `BPlusTreeLeafPage::MoveHalfTo`/`CopyHalf`: copy `n` source entries
starting at `st` into the destination starting at `desSt`. -/
def LeafPage.CopyHalfFrom (dest : LeafPage) (src : LeafPage) (st n desSt : Nat) : LeafPage :=
  { dest with arr := dest.arr.copyFrom src.arr st n desSt }

/-- `BPlusTreeLeafPage::Move` (leaf page lines 117-123). -/
def LeafPage.Move (p : LeafPage) (st : Nat) (direc : Bool) : LeafPage :=
  if direc then { p with arr := p.arr.shiftUpTo p.size st }
  else { p with arr := p.arr.shiftDownFrom p.size st }

/-- `BPlusTreeLeafPage::GetBound` (leaf page lines 126-136), identical to
`BPlusTree::GetBound` (b_plus_tree.cpp lines 492-503): the split index and
the side receiving the new entry. -/
def LeafPage.GetBound (idx size : Nat) : Nat × Bool :=
  if idx ≤ (size - 1) / 2 then ((size - 1) / 2, true)
  else ((size + 1) / 2, false)

/-- `BPlusTreeLeafPage::RemoveAt`: close the gap at `idx` and shrink. -/
def LeafPage.RemoveAt (p : LeafPage) (idx : Nat) : LeafPage :=
  { p with size := p.size - 1,
           arr := fun j => if idx ≤ j ∧ j < p.size - 1 then p.arr (j + 1) else p.arr j }

/-- `BPlusTreeInternalPage::KeyAt`. -/
def InternalPage.KeyAt (p : InternalPage) (i : Nat) : Key := (p.arr i).1

/-- `BPlusTreeInternalPage::SetKeyAt`. -/
def InternalPage.SetKeyAt (p : InternalPage) (i : Nat) (key : Key) : InternalPage :=
  { p with arr := p.arr.write i (key, (p.arr i).2) }

/-- `BPlusTreeInternalPage::ValueAt`. -/
def InternalPage.ValueAt (p : InternalPage) (i : Nat) : Pid := (p.arr i).2

/-- `BPlusTreeInternalPage::InsertIndex` (internal page lines 66-71):
`std::lower_bound` starting at slot `isRoot` (0 includes the unused slot-0
key in the scanned range, 1 skips it). -/
def InternalPage.InsertIndex (p : InternalPage) (key : Key) (isRoot : Bool) : Nat :=
  let err := if isRoot then 1 else 0
  lowerBoundLoop (fun e => decide (e.1 < key)) p.arr err (p.size - err)

/-- `BPlusTreeInternalPage::Insert` (internal page lines 73-97). -/
def InternalPage.Insert (p : InternalPage) (key : Key) (pid : Pid) (isRoot : Bool) :
    Bool × InternalPage :=
  if p.size = p.maxSize then (false, p)
  else
    let index := p.InsertIndex key isRoot
    if index = p.size then
      (true, { p with size := p.size + 1, arr := p.arr.write index (key, pid) })
    else if (p.arr index).1 = key then (false, p)
    else
      (true, { p with size := p.size + 1,
                      arr := (p.arr.openGap index (p.size + 1)).write index (key, pid) })

/-- `BPlusTreeInternalPage::FindChild` (internal page lines 99-121): the
child pid covering `key`, with the child's index output parameter. -/
def InternalPage.FindChild (p : InternalPage) (key : Key) : Pid × Nat :=
  let target := lowerBoundLoop (fun e => decide (e.1 < key)) p.arr 1 (p.size - 1)
  if target = p.size then ((p.arr (p.size - 1)).2, p.size - 1)
  else if (p.arr target).1 = key then ((p.arr target).2, target)
  else ((p.arr (target - 1)).2, target - 1)

/-- `BPlusTreeInternalPage::MoveHalfTo`/`CopyHalf`. -/
def InternalPage.CopyHalfFrom (dest : InternalPage) (src : InternalPage) (st n desSt : Nat) :
    InternalPage :=
  { dest with arr := dest.arr.copyFrom src.arr st n desSt }

/-- `BPlusTreeInternalPage::Move`. -/
def InternalPage.Move (p : InternalPage) (st : Nat) (direc : Bool) : InternalPage :=
  if direc then { p with arr := p.arr.shiftUpTo p.size st }
  else { p with arr := p.arr.shiftDownFrom p.size st }

/-- `BPlusTreeInternalPage::RootInit` (internal page lines 143-149): slot 0
gets the default key and the old root, slot 1 the promoted pair. -/
def InternalPage.RootInit (p : InternalPage) (pid₁ : Pid) (key : Key) (pid₂ : Pid) :
    InternalPage :=
  { p with size := 2, arr := (p.arr.write 0 ((0 : Int), pid₁)).write 1 (key, pid₂) }

/-- `BPlusTreeInternalPage::GetBound` (internal page lines 151-162); note
the formula differs from the leaf one. -/
def InternalPage.GetBound (idx size : Nat) : Nat × Bool :=
  if idx ≤ size / 2 then (size / 2, true)
  else (size / 2 + 1, false)

/-- `BPlusTreeInternalPage::RemoveAt`. -/
def InternalPage.RemoveAt (p : InternalPage) (idx : Nat) : InternalPage :=
  { p with size := p.size - 1,
           arr := fun j => if idx ≤ j ∧ j < p.size - 1 then p.arr (j + 1) else p.arr j }

/-! ### B+ tree (src/storage/index/b_plus_tree.cpp) -/

/-- A page of either kind, as selected by `page_type`. -/
inductive BPage
  | leaf : LeafPage → BPage
  | internal : InternalPage → BPage

/-- The page store reachable through the buffer pool: an association from
page id to page content. -/
abbrev Store := List (Pid × BPage)

/-- The `BPlusTree` object state: the page store, the header page's
`root_page_id_` field, the member `root_page_id_`, the two size limits and
the buffer pool's page-id allocator counter. -/
structure BPlusTree where
  store : Store
  headerRoot : Pid
  rootPageId : Pid
  leafMaxSize : Nat
  internalMaxSize : Nat
  nextPageId : Pid

/-- `BPlusTree::BPlusTree` (b_plus_tree.cpp lines 22-36): whatever root id
the header page held before (`prevHeaderRoot`), it is overwritten with
`INVALID_PAGE_ID`, and the injected `leaf_max_size` is clamped to
`min(leaf_max_size, internal_max_size − 1)`. -/
def BPlusTree.new (prevHeaderRoot : Pid) (leafMaxSize internalMaxSize : Nat) : BPlusTree :=
  { store := [], headerRoot := INVALID_PAGE_ID, rootPageId := INVALID_PAGE_ID,
    leafMaxSize := min leafMaxSize (internalMaxSize - 1),
    internalMaxSize := internalMaxSize, nextPageId := 0 }

/-- Read a page from the store (a `FetchPage` that hits). -/
def BPlusTree.fetch (t : BPlusTree) (pid : Pid) : Option BPage :=
  alistLookup t.store pid

/-- Write a page back through its guard. -/
def BPlusTree.setPage (t : BPlusTree) (pid : Pid) (p : BPage) : BPlusTree :=
  { t with store := alistInsert t.store pid p }

/-- `BufferPoolManager::NewPageGuarded`: allocate the next page id. -/
def BPlusTree.allocPid (t : BPlusTree) : Pid × BPlusTree :=
  (t.nextPageId, { t with nextPageId := t.nextPageId + 1 })

/-- `BPlusTree::IsEmpty`. -/
def BPlusTree.IsEmpty (t : BPlusTree) : Bool := t.rootPageId = INVALID_PAGE_ID

/-- The descent loop shared by `GetLeaf` and `GetLeafAndUpdate`
(b_plus_tree.cpp lines 418-469): walk from `pid` to the covering leaf,
appending every visited page to the write set and recording each child's
index in its parent in `pos`.  `none` models running out of fuel or a
dangling page id, neither of which occurs on well-formed trees. -/
def BPlusTree.getLeafWalk (t : BPlusTree) (key : Key) :
    Nat → Pid → List Pid → List (Pid × Nat) → Option (List Pid × List (Pid × Nat))
  | 0, _, _, _ => none
  | fuel + 1, pid, ws, pos =>
    match t.fetch pid with
    | some (.leaf _) => some (ws ++ [pid], pos)
    | some (.internal nd) =>
      let (cpid, idx) := nd.FindChild key
      t.getLeafWalk key fuel cpid (ws ++ [pid]) (alistInsert pos cpid idx)
    | none => none

/-- `BPlusTree::GetValue` (b_plus_tree.cpp lines 52-77): `some v` models
`true` with `v` appended to the result vector, `none` models `false`.
The result is `none` as well if the walk runs out of fuel. -/
def BPlusTree.GetValue (t : BPlusTree) (key : Key) (fuel : Nat) : Option Val :=
  if t.IsEmpty then none
  else
    match t.getLeafWalk key fuel t.rootPageId [] [] with
    | some (ws, _) =>
      match t.fetch (ws.getLastD INVALID_PAGE_ID) with
      | some (.leaf p) => (p.Exist key).1
      | _ => none
    | none => none

/-- `BPlusTree::NewRootPage` (b_plus_tree.cpp lines 505-520): allocate a
fresh leaf root holding the single pair and publish it in the header. -/
def BPlusTree.NewRootPage (t : BPlusTree) (key : Key) (v : Val) : BPlusTree :=
  let (pid, t₁) := t.allocPid
  let root := (LeafPage.init t.leafMaxSize).Insert key v
  { (t₁.setPage pid (.leaf root.2)) with headerRoot := pid, rootPageId := pid }

/-- `BPlusTree::Split` (b_plus_tree.cpp lines 217-241) for a leaf: the new
right page receives the `size − rightStart` entries from `rightStart`
upward, and the sizes are cut accordingly. -/
def BPlusTree.splitLeaf (t : BPlusTree) (p : LeafPage) (rightStart : Nat) :
    (LeafPage × LeafPage) × Pid × BPlusTree :=
  let (rightPid, t₁) := t.allocPid
  let right := LeafPage.init t.leafMaxSize
  let right := { (right.CopyHalfFrom p rightStart (p.size - rightStart) 0) with
                   size := p.size - rightStart }
  let left := { p with size := rightStart }
  ((left, right), rightPid, t₁)

/-- `BPlusTree::Split` for an internal page. -/
def BPlusTree.splitInternal (t : BPlusTree) (p : InternalPage) (rightStart : Nat) :
    (InternalPage × InternalPage) × Pid × BPlusTree :=
  let (rightPid, t₁) := t.allocPid
  let right := InternalPage.init t.internalMaxSize
  let right := { (right.CopyHalfFrom p rightStart (p.size - rightStart) 0) with
                   size := p.size - rightStart }
  let left := { p with size := rightStart }
  ((left, right), rightPid, t₁)

/-- `BPlusTree::InsertInternal` (b_plus_tree.cpp lines 154-215), iterating
over the still-held ancestors from the deepest up (the write set is passed
reversed, deepest first).  When the loop exhausts the write set the split
reached the root and a new internal root is published. -/
def BPlusTree.insertInternalAux (t : BPlusTree) :
    List Pid → Key → Pid → Option (Bool × BPlusTree)
  | [], key, pid =>
    let (newRootPid, t₁) := t.allocPid
    let oldRoot := t₁.rootPageId
    let root := (InternalPage.init t.internalMaxSize).RootInit oldRoot key pid
    let t₂ := t₁.setPage newRootPid (.internal root)
    some (true, { t₂ with rootPageId := newRootPid, headerRoot := newRootPid })
  | curPid :: rest, key, pid =>
    match t.fetch curPid with
    | some (.internal nd) =>
      if nd.size < nd.maxSize then
        let (ok, nd') := nd.Insert key pid true
        some (ok, t.setPage curPid (.internal nd'))
      else
        let idx := nd.InsertIndex key false
        let (bound, insertLeft) := InternalPage.GetBound idx nd.maxSize
        let ((left, right), rightPid, t₁) := t.splitInternal nd bound
        let left := if insertLeft then (left.Insert key pid true).2 else left
        let right := if insertLeft then right else (right.Insert key pid false).2
        let t₂ := (t₁.setPage curPid (.internal left)).setPage rightPid (.internal right)
        t₂.insertInternalAux rest (right.KeyAt 0) rightPid
    | _ => none

/-- `BPlusTree::Insert` (b_plus_tree.cpp lines 89-152).  `some (ok, t')`
gives the C++ return value and the state after the call. -/
def BPlusTree.Insert (t : BPlusTree) (key : Key) (v : Val) (fuel : Nat) :
    Option (Bool × BPlusTree) :=
  if t.IsEmpty then some (true, t.NewRootPage key v)
  else
    match t.getLeafWalk key fuel t.rootPageId [] [] with
    | none => none
    | some (ws, _) =>
      let curPid := ws.getLastD INVALID_PAGE_ID
      match t.fetch curPid with
      | some (.leaf p) =>
        let (found, idx) := p.Exist key
        if found.isSome then some (false, t)
        else if p.size < p.maxSize then
          let (ok, p') := p.Insert key v
          some (ok, t.setPage curPid (.leaf p'))
        else
          let (bound, insertLeft) := LeafPage.GetBound idx p.size
          let ((left, right), rightPid, t₁) := t.splitLeaf p bound
          let left := if insertLeft then (left.Insert key v).2 else left
          let right := if insertLeft then right else (right.Insert key v).2
          let right := { right with next := left.next }
          let left := { left with next := rightPid }
          let splitKey := right.KeyAt 0
          let t₂ := (t₁.setPage curPid (.leaf left)).setPage rightPid (.leaf right)
          t₂.insertInternalAux ws.dropLast.reverse splitKey rightPid
      | _ => none

/-- `BPlusTree::RemoveRoot` (b_plus_tree.cpp lines 686-692). -/
def BPlusTree.RemoveRoot (t : BPlusTree) (pid : Pid) : BPlusTree :=
  { t with headerRoot := pid, rootPageId := pid }

/-- One sibling selection: the last child borrows from its left neighbour,
every other child from its right neighbour (b_plus_tree.cpp lines 532-538
and 628-635). -/
def siblingOf (parent : InternalPage) (indexInParent : Nat) : Bool × Pid :=
  let isLast := indexInParent = parent.size - 1
  if isLast then (true, parent.ValueAt (indexInParent - 1))
  else (false, parent.ValueAt (indexInParent + 1))

/-- `BPlusTree::RemoveInternal` (b_plus_tree.cpp lines 588-684), iterating
over the ancestors deepest-first (`ws` is the reversed remaining write
set).  Carries `delIndex`, `newKey` and the `is_merge` flag exactly as the
C++ loop does. -/
def BPlusTree.RemoveInternal (t : BPlusTree) (rootAtStart : Pid) (pos : List (Pid × Nat)) :
    List Pid → Nat → Key → Bool → Option BPlusTree
  | [], _, _, _ => some t
  | curPid :: rest, delIndex, newKey, isMerge =>
    match t.fetch curPid with
    | some (.internal nd) =>
      let nd := nd.SetKeyAt (delIndex - 1) newKey
      let nd := if isMerge then nd.RemoveAt delIndex else nd
      let t₁ := t.setPage curPid (.internal nd)
      if curPid = rootAtStart then
        some (if nd.size = 1 then t₁.RemoveRoot (nd.ValueAt 0) else t₁)
      else if nd.size ≥ minSizeOf nd.maxSize then
        some t₁
      else
        match rest with
        | [] => none
        | parentPid :: _ =>
          match t₁.fetch parentPid with
          | some (.internal parent) =>
            let indexInParent := (alistLookup pos curPid).getD 0
            let (isLast, siblingPid) := siblingOf parent indexInParent
            match t₁.fetch siblingPid with
            | some (.internal sibling) =>
              let total := nd.size + sibling.size
              if total ≤ nd.maxSize then
                let delIndex' := if isLast then indexInParent else indexInParent + 1
                let (cur, right) := if isLast then (sibling, nd) else (nd, sibling)
                let cur := { (cur.CopyHalfFrom right 0 right.size cur.size) with
                               size := total }
                let right := { right with size := 0 }
                let parent := parent.SetKeyAt (delIndex' - 1) (cur.KeyAt 0)
                let curPid' := if isLast then siblingPid else curPid
                let rightPid' := if isLast then curPid else siblingPid
                let t₂ := ((t₁.setPage curPid' (.internal cur)).setPage rightPid'
                            (.internal right)).setPage parentPid (.internal parent)
                t₂.RemoveInternal rootAtStart pos rest delIndex' (cur.KeyAt 0) true
              else
                let idxHalf := total / 2
                if isLast then
                  let cur := nd.Move idxHalf true
                  let cur := { (cur.CopyHalfFrom sibling (total - idxHalf) (idxHalf - nd.size) 0) with
                                 size := idxHalf }
                  let sib := { sibling with size := total - idxHalf }
                  let parent := (parent.SetKeyAt indexInParent (cur.KeyAt 0)).SetKeyAt
                                  (indexInParent - 1) (sib.KeyAt 0)
                  let t₂ := ((t₁.setPage curPid (.internal cur)).setPage siblingPid
                              (.internal sib)).setPage parentPid (.internal parent)
                  t₂.RemoveInternal rootAtStart pos rest indexInParent (sib.KeyAt 0) false
                else
                  let cur := { (nd.CopyHalfFrom sibling 0 (sibling.size - idxHalf) nd.size) with
                                 size := total - idxHalf }
                  let sib := { (sibling.Move (sibling.size - idxHalf) false) with
                                 size := idxHalf }
                  let parent := (parent.SetKeyAt (indexInParent + 1) (sib.KeyAt 0)).SetKeyAt
                                  indexInParent (cur.KeyAt 0)
                  let t₂ := ((t₁.setPage curPid (.internal cur)).setPage siblingPid
                              (.internal sib)).setPage parentPid (.internal parent)
                  t₂.RemoveInternal rootAtStart pos rest (indexInParent + 1) (cur.KeyAt 0) false
            | _ => none
          | _ => none
    | _ => none

/-- `BPlusTree::RemoveLeaf` (b_plus_tree.cpp lines 522-586): merge the
underfull leaf with its sibling when both fit in one page (and continue
into `RemoveInternal`), otherwise redistribute and patch the parent's
separator. -/
def BPlusTree.RemoveLeaf (t : BPlusTree) (rootAtStart : Pid) (pos : List (Pid × Nat))
    (ws : List Pid) : Option BPlusTree :=
  match ws with
  | [] => none
  | curPid :: rest =>
    match t.fetch curPid, rest with
    | some (.leaf p), parentPid :: _ =>
      match t.fetch parentPid with
      | some (.internal parent) =>
        let indexInParent := (alistLookup pos curPid).getD 0
        let (isLast, siblingPid) := siblingOf parent indexInParent
        match t.fetch siblingPid with
        | some (.leaf sibling) =>
          let total := p.size + sibling.size
          if total ≤ p.maxSize then
            let delIndex := if isLast then indexInParent else indexInParent + 1
            let (cur, right) := if isLast then (sibling, p) else (p, sibling)
            let cur := { (cur.CopyHalfFrom right 0 right.size cur.size) with
                           size := total, next := right.next }
            let right := { right with size := 0 }
            let curPid' := if isLast then siblingPid else curPid
            let rightPid' := if isLast then curPid else siblingPid
            let t₁ := (t.setPage curPid' (.leaf cur)).setPage rightPid' (.leaf right)
            t₁.RemoveInternal rootAtStart pos rest delIndex (cur.KeyAt 0) true
          else
            let idxHalf := total / 2
            if isLast then
              let cur := p.Move idxHalf true
              let cur := { (cur.CopyHalfFrom sibling (total - idxHalf) (idxHalf - p.size) 0) with
                             size := idxHalf }
              let sib := { sibling with size := total - idxHalf }
              let parent := parent.SetKeyAt indexInParent (cur.KeyAt 0)
              some (((t.setPage curPid (.leaf cur)).setPage siblingPid
                      (.leaf sib)).setPage parentPid (.internal parent))
            else
              let cur := { (p.CopyHalfFrom sibling 0 (sibling.size - idxHalf) p.size) with
                             size := total - idxHalf }
              let sib := { (sibling.Move (sibling.size - idxHalf) false) with
                             size := idxHalf }
              let parent := parent.SetKeyAt (indexInParent + 1) (sib.KeyAt 0)
              some (((t.setPage curPid (.leaf cur)).setPage siblingPid
                      (.leaf sib)).setPage parentPid (.internal parent))
        | _ => none
      | _ => none
    | _, _ => none

/-- `BPlusTree::Remove` (b_plus_tree.cpp lines 254-309). -/
def BPlusTree.Remove (t : BPlusTree) (key : Key) (fuel : Nat) : Option BPlusTree :=
  if t.IsEmpty then some t
  else
    match t.getLeafWalk key fuel t.rootPageId [] [] with
    | none => none
    | some (ws, pos) =>
      let curPid := ws.getLastD INVALID_PAGE_ID
      match t.fetch curPid with
      | some (.leaf p) =>
        let (found, idx) := p.Exist key
        if found.isNone then some t
        else
          let p' := p.RemoveAt idx
          let t₁ := t.setPage curPid (.leaf p')
          if p'.size ≥ minSizeOf p'.maxSize then some t₁
          else if curPid = t.rootPageId then
            some (if p'.size = 0 then t₁.RemoveRoot INVALID_PAGE_ID else t₁)
          else
            t₁.RemoveLeaf t.rootPageId pos (curPid :: ws.dropLast.reverse)
      | _ => none

/-! ### Index iterator (src/storage/index/index_iterator.cpp) -/

/-- The iterator fields used by the iterator code: the current leaf page id
and the in-leaf index. -/
structure IndexIterator where
  curPageId : Pid
  index : Nat
  deriving DecidableEq, Repr

/-- `IndexIterator::operator==` (index_iterator.cpp lines 72-75). -/
def IndexIterator.eqOp (a b : IndexIterator) : Bool :=
  a.curPageId = b.curPageId ∧ a.index = b.index

/-- `IndexIterator::operator!=` (index_iterator.cpp lines 77-78): the body
is `return *this == itr;`. -/
def IndexIterator.neOp (a b : IndexIterator) : Bool :=
  a.eqOp b

/-- `IndexIterator::IsEnd` (index_iterator.cpp lines 25-38): true exactly
when the current leaf has no successor and the index has reached the
leaf's `max_size` (the code also re-assigns `index_ = max_size` then,
which never changes it, since the increment caps the index at
`max_size`).  `none` models the `BUSTUB_ASSERT` on an invalid page id or a
dangling fetch. -/
def IndexIterator.IsEnd (st : Store) (it : IndexIterator) : Option Bool :=
  if it.curPageId = INVALID_PAGE_ID then none
  else
    match alistLookup st it.curPageId with
    | some (.leaf p) => some (p.next = INVALID_PAGE_ID ∧ it.index ≥ p.maxSize)
    | _ => none

/-- `IndexIterator::operator*` (index_iterator.cpp lines 40-48). -/
def IndexIterator.deref (st : Store) (it : IndexIterator) : Option (Key × Val) :=
  if it.curPageId = INVALID_PAGE_ID then none
  else
    match alistLookup st it.curPageId with
    | some (.leaf p) => some (p.arr it.index)
    | _ => none

/-- `IndexIterator::operator++` (index_iterator.cpp lines 50-70): on the
last leaf the index saturates at `max_size`; on other leaves the iterator
hops to the next leaf when the index hits `max_size − 1`, else just
advances. -/
def IndexIterator.inc (st : Store) (it : IndexIterator) : Option IndexIterator :=
  if it.curPageId = INVALID_PAGE_ID then none
  else
    match alistLookup st it.curPageId with
    | some (.leaf p) =>
      if p.next = INVALID_PAGE_ID then
        some { it with index := min (it.index + 1) p.maxSize }
      else if it.index = p.maxSize - 1 then
        some { curPageId := p.next, index := 0 }
      else
        some { it with index := it.index + 1 }
    | _ => none

/-- `BPlusTree::Begin()` (b_plus_tree.cpp lines 319-338): read the root id
from the header page and descend along slot-0 children to the leftmost
leaf.  `none` models the default-constructed end iterator returned for an
empty tree. -/
def BPlusTree.BeginWalk (t : BPlusTree) : Nat → Pid → Option IndexIterator
  | 0, _ => none
  | fuel + 1, pid =>
    match t.fetch pid with
    | some (.leaf _) => some ⟨pid, 0⟩
    | some (.internal nd) => t.BeginWalk fuel (nd.ValueAt 0)
    | none => none

/-- `BPlusTree::Begin()` proper. -/
def BPlusTree.Begin (t : BPlusTree) (fuel : Nat) : Option IndexIterator :=
  if t.headerRoot = INVALID_PAGE_ID then none
  else t.BeginWalk fuel t.headerRoot

/-- The read-only scan the iterator interface supports: visit the current
entry and increment until `IsEnd` reports true, collecting the
dereferenced `(key, value)` pairs. -/
def iterTraverse (st : Store) : Nat → IndexIterator → Option (List (Key × Val))
  | 0, _ => none
  | fuel + 1, it =>
    match it.IsEnd st with
    | none => none
    | some true => some []
    | some false =>
      match it.deref st with
      | none => none
      | some kv =>
        match it.inc st with
        | none => none
        | some it' =>
          match iterTraverse st fuel it' with
          | none => none
          | some rest => some (kv :: rest)

/-- The full scan of a tree from `Begin()`. -/
def BPlusTree.scanAll (t : BPlusTree) (fuel : Nat) : Option (List (Key × Val)) :=
  match t.Begin fuel with
  | none => if t.headerRoot = INVALID_PAGE_ID then some [] else none
  | some it => iterTraverse t.store fuel it

/-! ### Deadlock detection (src/concurrency/lock_manager.cpp lines 534-647) -/

/-- Transaction ids. -/
abbrev TxnId := Int

/-- The waits-for graph `waits_for_`: adjacency association from a
transaction to the sorted set of transactions waiting behind it.  (The C++
`waits_for_[t]` default-inserts an empty set on lookup of a missing key;
an empty adjacency entry is behaviourally inert — it yields one more DFS
root with no outgoing edges — so the model reads missing keys as the empty
list without materialising them.) -/
abbrev WaitsFor := List (TxnId × List TxnId)

/-- The adjacency set `waits_for_[t]`. -/
def graphTargets (g : WaitsFor) (t : TxnId) : List TxnId :=
  (alistLookup g t).getD []

/-- `LockManager::RemoveAllAboutAbortTxn` (lines 534-540): drop the
victim's adjacency entry and remove it from every remaining set. -/
def RemoveAllAboutAbortTxn (g : WaitsFor) (tid : TxnId) : WaitsFor :=
  (alistErase g tid).map (fun e => (e.1, e.2.erase tid))

/-- `LockManager::DFS` (lines 574-591): threading `cycle_set_` and
`searched_set_` explicitly; `none` models fuel exhaustion, which a
sufficient fuel rules out.  The iteration over `waits_for_[txn_id]` is a
left fold that short-circuits once a cycle is reported, exactly as the
C++ `for` loop returns on the first `DFS(target)` that is true. -/
def dfsVisit (g : WaitsFor) : Nat → TxnId → List TxnId → List TxnId →
    Option (Bool × List TxnId × List TxnId)
  | 0, _, _, _ => none
  | fuel + 1, t, cyc, searched =>
    if t ∈ searched then some (false, cyc, searched)
    else if t ∈ cyc then some (true, cyc, searched)
    else
      match (graphTargets g t).foldl
          (fun acc target =>
            match acc with
            | none => none
            | some (true, cyc', searched') => some (true, cyc', searched')
            | some (false, cyc', searched') => dfsVisit g fuel target cyc' searched')
          (some (false, t :: cyc, searched)) with
      | none => none
      | some (true, cyc', searched') => some (true, cyc', searched')
      | some (false, cyc', searched') => some (false, cyc'.erase t, t :: searched')

/-- Ascending insertion sort of transaction ids (the `std::sort` of
`HasCycle`, lines 598-599). -/
def sortTxnIds (l : List TxnId) : List TxnId :=
  match l with
  | [] => []
  | t :: rest =>
    let sorted := sortTxnIds rest
    let rec ins (x : TxnId) : List TxnId → List TxnId
      | [] => [x]
      | y :: ys => if x ≤ y then x :: y :: ys else y :: ins x ys
    ins t sorted

/-- The maximum of a transaction-id list (`HasCycle` lines 603-606). -/
def maxTxnId (l : List TxnId) : TxnId :=
  l.foldl max (l.headD 0)

/-- The per-root loop of `LockManager::HasCycle` (lines 600-610):
`cycle_set_` is cleared before each root; on success the victim is the
largest id in the final `cycle_set_`, which the model returns alongside. -/
def hasCycleLoop (g : WaitsFor) (fuel : Nat) :
    List TxnId → List TxnId → Option (Option (TxnId × List TxnId))
  | [], _ => some none
  | r :: rest, searched =>
    match dfsVisit g fuel r [] searched with
    | none => none
    | some (true, cyc, _) => some (some (maxTxnId cyc, cyc))
    | some (false, _, searched') => hasCycleLoop g fuel rest searched'

/-- `LockManager::HasCycle` (lines 593-612): scan the graph's transaction
ids in ascending order, DFS from each; the returned pair is the victim id
and the `cycle_set_` (the DFS path) at the moment the cycle was found. -/
def HasCycle (g : WaitsFor) (fuel : Nat) : Option (Option (TxnId × List TxnId)) :=
  hasCycleLoop g fuel (sortTxnIds (g.map (fun e => e.1))) []

/-- One body of the detection loop in `LockManager::RunCycleDetection`
(lines 631-644): abort the victim, remove its edges, and repeat until
`HasCycle` reports none.  Returns the victims in abort order, the final
graph and the updated transaction-state table.  (`WakeAbortedTxn`'s
`notify_all` is a condition-variable side effect with no state in this
model; the victims list is exactly the set of transactions it wakes.) -/
def detectionPass (txns : List (TxnId × TransactionState)) :
    Nat → WaitsFor → Nat → Option (List TxnId × WaitsFor × List (TxnId × TransactionState))
  | 0, _, _ => none
  | passFuel + 1, g, dfsFuel =>
    match HasCycle g dfsFuel with
    | none => none
    | some none => some ([], g, txns)
    | some (some (tid, _)) =>
      match detectionPass (alistInsert txns tid .Aborted) passFuel
              (RemoveAllAboutAbortTxn g tid) dfsFuel with
      | none => none
      | some (victims, g', txns') => some (tid :: victims, g', txns')

/-! ### Specification-side definitions and invariants used by the theorems -/

/-- The split-index rule as the spec words it, claimed for every split:
`s = (n+1)/2` if `i > (n−1)/2` else `(n−1)/2`.  Stated as its own
definition so it can be compared against the two `GetBound` functions. -/
def specSplitIndex (i n : Nat) : Nat :=
  if i > (n - 1) / 2 then (n + 1) / 2 else (n - 1) / 2

/-- Backward K-distance as the spec's glossary defines it: the gap between
now and the K-th most recent access, infinite for frames with fewer than K
accesses.  For a well-formed cache node the oldest retained timestamp is
exactly the K-th most recent access. -/
def specBackwardKDistance (K now : Nat) (n : LRUKNode) : WithTop Nat :=
  if n.k < K then ⊤ else (now - n.oldest : Nat)

/-- Strictly-descending order by oldest retained timestamp (front = newest)
— the order both replacer cohorts are kept in: the history list because
fresh frames are pushed at the front and never reordered, the cache list
because `RecordAccess` inserts before the first strictly-older entry. -/
def DescByOldest (l : List LRUKNode) : Prop :=
  List.Pairwise (fun a b => b.oldest < a.oldest) l

/-- Well-formedness of a replacer state, as established by the operations:
cohort membership matches the access count, histories are nonempty, both
lists are strictly descending by oldest timestamp, frame ids are unique
and the evictable counters count the evictable nodes of their cohorts. -/
def ReplacerWf (s : LRUKReplacer) : Prop :=
  (∀ n ∈ s.fifo, n.k < s.k ∧ n.history ≠ []) ∧
  (∀ n ∈ s.lru, s.k ≤ n.k ∧ n.history ≠ []) ∧
  DescByOldest s.fifo ∧ DescByOldest s.lru ∧
  ((s.fifo ++ s.lru).map (fun n => n.fid)).Nodup ∧
  s.evictableCntFifo = (s.fifo.filter (fun n => n.isEvictable)).length ∧
  s.evictableCntLru = (s.lru.filter (fun n => n.isEvictable)).length

/-- An edge of the waits-for graph. -/
def hasEdge (g : WaitsFor) (a b : TxnId) : Prop :=
  b ∈ graphTargets g a

/-- The DFS stack shape: head is the deepest node and each node has an edge
to the one pushed after it. -/
def StackChain (g : WaitsFor) (l : List TxnId) : Prop :=
  List.Chain' (fun a b => hasEdge g b a) l

/-- All transaction ids occurring in the graph (sources and targets). -/
def nodesOf (g : WaitsFor) : List TxnId :=
  g.map (fun e => e.1) ++ g.flatMap (fun e => e.2)

/-- The number of distinct transaction ids in the graph. -/
def nodeCard (g : WaitsFor) : Nat := (nodesOf g).toFinset.card

/-- The total number of edges. -/
def edgeCount (g : WaitsFor) : Nat := (g.map (fun e => e.2.length)).sum

/-- Unwrap an insert result (concrete test trees only). -/
def optTree (o : Option (Bool × BPlusTree)) : BPlusTree :=
  match o with
  | some r => r.2
  | none => BPlusTree.new 0 0 0

/-- Unwrap a fetched leaf (concrete test trees only). -/
def leafOf (o : Option BPage) : LeafPage :=
  match o with
  | some (.leaf p) => p
  | _ => LeafPage.init 0

/-- The tree over `leaf_max_size = 2`, `internal_max_size = 3` holding keys
1, 2, 3: a root internal page (pid 2) over the leaves pid 0 = `[1]` and
pid 1 = `[2, 3]`. -/
def tree123 : BPlusTree :=
  optTree ((optTree ((optTree
    ((BPlusTree.new 0 2 3).Insert 1 10 50)).Insert 2 20 50)).Insert 3 30 50)

/-- A one-frame buffer pool holding page 5 pinned once (concrete witness
state). -/
def poolC5 : BufferPoolManager :=
  { pages := [{ pageId := 5, pinCount := 1, isDirty := false }],
    pageTable := [((5 : Pid), (0 : Nat))],
    replacer := { replacerSize := 1, k := 2 } }

/-- A concrete well-formed replacer state (K = 2): two evictable history
frames (3 newer than 1) and two evictable cache frames (4 newer than 7). -/
def replacerC4 : LRUKReplacer :=
  { fifo := [⟨3, 1, [5], true⟩, ⟨1, 1, [2], true⟩],
    lru := [⟨4, 2, [3, 6], true⟩, ⟨7, 2, [1, 4], true⟩],
    replacerSize := 10, k := 2, currentTimestamp := 6,
    evictableCntFifo := 2, evictableCntLru := 2, currSize := 4 }

/-- The waits-for graph of two transactions blocking each other
(spec scenario E shape: 3 waits for 5, 5 waits for 3). -/
def graphC8 : WaitsFor := [((3 : TxnId), [(5 : TxnId)]), (5, [3])]

/-- A transaction-state table for the two transactions of `graphC8`. -/
def txnsC8 : List (TxnId × TransactionState) := [(3, .Growing), (5, .Growing)]

/-- A tree operation of the round-trip workload. -/
inductive TreeOp
  | ins (k : Key) (v : Val)
  | rem (k : Key)
  deriving DecidableEq, Repr

/-- Run a list of operations from the given tree, recording each Insert's
return value; `none` only if the model runs out of fuel. -/
def runOps (t : BPlusTree) : List TreeOp → Option (List Bool × BPlusTree)
  | [] => some ([], t)
  | .ins k v :: rest =>
    match t.Insert k v 80 with
    | none => none
    | some (ok, t') => (runOps t' rest).map (fun r => (ok :: r.1, r.2))
  | .rem k :: rest =>
    match t.Remove k 80 with
    | none => none
    | some t' => runOps t' rest

/-- The keys a workload inserts. -/
def insertedKeys (ops : List TreeOp) : List Key :=
  ops.filterMap (fun o => match o with | .ins k _ => some k | .rem _ => none)

/-- The round-trip workload that loses key 13 on a tree with
`leaf_max_size = 2`, `internal_max_size = 4`: ten distinct-key inserts,
one remove, two more inserts, one more remove. -/
def opsC1 : List TreeOp :=
  [.ins 4 40, .ins 12 120, .ins 15 150, .ins 18 180, .ins 3 30,
   .ins 7 70, .ins 9 90, .ins 16 160, .ins 6 60, .ins 5 50,
   .rem 12, .ins 8 80, .ins 13 130, .rem 7]

/-! ## Theorems -/

/-- C10: for every pair of index iterators, `operator!=` returns the same
boolean as `operator==` — true exactly when both page id and index agree —
so it is not the logical negation of `operator==` (exhibited at two equal
iterators, where the negation would give `false`). -/
theorem C10_neq_equals_eq :
    (∀ a b : IndexIterator, a.neOp b = a.eqOp b) ∧
    (∀ a b : IndexIterator, a.neOp b = true ↔
      a.curPageId = b.curPageId ∧ a.index = b.index) ∧
    IndexIterator.neOp ⟨0, 0⟩ ⟨0, 0⟩ = true ∧
    IndexIterator.eqOp ⟨0, 0⟩ ⟨0, 0⟩ = true := by
  refine ⟨fun a b => rfl, fun a b => ?_, rfl, rfl⟩
  simp [IndexIterator.neOp, IndexIterator.eqOp]

/-- C9: the constructor overwrites the header page's root id with
`INVALID_PAGE_ID` whatever it held before, and clamps the configured leaf
capacity to `min(leaf_max_size, internal_max_size − 1)`; that clamped
field is the capacity every subsequently created leaf is initialised
with (both by `NewRootPage` and by a leaf `Split`). -/
theorem C9_constructor_effects (prev : Pid) (leafMax internalMax : Nat)
    (h : 1 ≤ internalMax) :
    (BPlusTree.new prev leafMax internalMax).headerRoot = INVALID_PAGE_ID ∧
    (BPlusTree.new prev leafMax internalMax).rootPageId = INVALID_PAGE_ID ∧
    (BPlusTree.new prev leafMax internalMax).leafMaxSize = min leafMax (internalMax - 1) ∧
    (∀ key v,
      ((BPlusTree.new prev leafMax internalMax).NewRootPage key v).fetch 0 =
        some (.leaf ((LeafPage.init (min leafMax (internalMax - 1))).Insert key v).2)) ∧
    (∀ (t : BPlusTree) (p : LeafPage) (bound : Nat),
      (t.splitLeaf p bound).1.2.maxSize = t.leafMaxSize) := by
  refine ⟨rfl, rfl, rfl, fun key v => rfl, fun t p bound => rfl⟩

/-- Witness for C9 at a concrete configuration. -/
theorem C9_constructor_effects_witness :
    1 ≤ 3 ∧ (BPlusTree.new 7 2 3).headerRoot = INVALID_PAGE_ID ∧
      (BPlusTree.new 7 2 3).leafMaxSize = min 2 (3 - 1) :=
  ⟨by decide, (C9_constructor_effects 7 2 3 (by decide)).1,
    (C9_constructor_effects 7 2 3 (by decide)).2.2.1⟩

/-- C2 counterexample: the claim's split-index formula
`s = (n+1)/2 if i > (n−1)/2 else (n−1)/2` disagrees with
`BPlusTreeInternalPage::GetBound` at insertion index `i = 1` in a full
internal node of size `n = 4`: the code splits at `s = 4/2 = 2` (and sends
the new pair left), while the claimed formula gives `s = 1`. -/
theorem C2_counterexample :
    (InternalPage.GetBound 1 4).1 = 2 ∧ specSplitIndex 1 4 = 1 ∧
    (InternalPage.GetBound 1 4).1 ≠ specSplitIndex 1 4 ∧
    (InternalPage.GetBound 1 4).2 = true := by
  refine ⟨rfl, rfl, by decide, rfl⟩

/-- C2 (amended): the claimed formula `s = (n+1)/2 if i > (n−1)/2 else
(n−1)/2` is exactly the leaf `GetBound` (and the side flag is
`i ≤ (n−1)/2`), while internal pages split at `s = n/2 if i ≤ n/2 else
n/2 + 1`; a split's right page receives exactly the entries `[s, n)` of
the old node and the left keeps `[0, s)`; the new pair goes to the side
the flag selects, whose boundary brackets the insertion index; and on a
leaf split the right page inherits the old leaf's `next_page_id` while
the left leaf's `next_page_id` becomes the new right page's id. -/
theorem C2_split_rule :
    (∀ i n, (LeafPage.GetBound i n).1 = specSplitIndex i n ∧
            (LeafPage.GetBound i n).2 = decide (i ≤ (n - 1) / 2)) ∧
    (∀ i n, (InternalPage.GetBound i n).1 = if i ≤ n / 2 then n / 2 else n / 2 + 1) ∧
    (∀ (t : BPlusTree) (p : LeafPage) (bound : Nat),
      (t.splitLeaf p bound).1.2.size = p.size - bound ∧
      (∀ j, j < p.size - bound → (t.splitLeaf p bound).1.2.arr j = p.arr (bound + j)) ∧
      (t.splitLeaf p bound).1.1.size = bound ∧
      (t.splitLeaf p bound).2.1 = t.nextPageId) ∧
    (∀ i n, 1 ≤ n →
      ((LeafPage.GetBound i n).2 = true → i ≤ (LeafPage.GetBound i n).1) ∧
      ((LeafPage.GetBound i n).2 = false → (LeafPage.GetBound i n).1 ≤ i)) ∧
    (∀ (t : BPlusTree) (key : Key) (v : Val) (fuel : Nat) ws pos (p : LeafPage) idx,
      t.IsEmpty = false →
      t.getLeafWalk key fuel t.rootPageId [] [] = some (ws, pos) →
      t.fetch (ws.getLastD INVALID_PAGE_ID) = some (.leaf p) →
      p.Exist key = (none, idx) →
      p.size = p.maxSize →
      t.Insert key v fuel =
        (let (bound, insertLeft) := LeafPage.GetBound idx p.size
         let halves := t.splitLeaf p bound
         let L := if insertLeft then (halves.1.1.Insert key v).2 else halves.1.1
         let R := if insertLeft then halves.1.2 else (halves.1.2.Insert key v).2
         let R := { R with next := L.next }
         let L := { L with next := halves.2.1 }
         ((halves.2.2.setPage (ws.getLastD INVALID_PAGE_ID) (.leaf L)).setPage halves.2.1
            (.leaf R)).insertInternalAux ws.dropLast.reverse (R.KeyAt 0) halves.2.1)) := by
  refine ⟨?_, ?_, ?_, ?_, ?_⟩
  · intro i n
    constructor
    · simp only [LeafPage.GetBound, specSplitIndex]
      rcases lt_or_ge ((n - 1) / 2) i with h | h
      · rw [if_neg (by omega), if_pos h]
      · rw [if_pos h, if_neg (by omega)]
    · simp only [LeafPage.GetBound]
      rcases le_or_lt i ((n - 1) / 2) with h | h
      · rw [if_pos h]; simp [h]
      · rw [if_neg (by omega)]; simp; omega
  · intro i n
    simp only [InternalPage.GetBound]
    by_cases h : i ≤ n / 2 <;> simp [h]
  · intro t p bound
    refine ⟨rfl, fun j hj => ?_, rfl, rfl⟩
    simp only [BPlusTree.splitLeaf, LeafPage.CopyHalfFrom, Arr.copyFrom]
    rw [if_pos ⟨Nat.zero_le j, by omega⟩, Nat.sub_zero]
  · intro i n hn
    simp only [LeafPage.GetBound]
    rcases le_or_lt i ((n - 1) / 2) with h | h
    · rw [if_pos h]; exact ⟨fun _ => by omega, fun hf => by simp at hf⟩
    · rw [if_neg (by omega)]
      exact ⟨fun ht => by simp at ht, fun _ => by omega⟩
  · intro t key v fuel ws pos p idx hne hwalk hfetch hexist hfull
    simp only [BPlusTree.Insert, hne, Bool.false_eq_true, if_false, hwalk, hfetch, hexist,
      Option.isSome_none, Bool.false_eq_true, if_false, hfull, lt_irrefl, if_false]

/-- Witness for C2's conditional parts: inserting key 4 into `tree123`
(whose covering leaf `[2, 3]` is full) takes exactly the split path, and
the boundary fact holds at `i = 1`, `n = 2`. -/
theorem C2_split_rule_witness :
    (1 : Nat) ≤ 2 ∧
    tree123.IsEmpty = false ∧
    tree123.getLeafWalk 4 50 tree123.rootPageId [] [] = some ([2, 1], [(1, 1)]) ∧
    tree123.fetch (([2, 1] : List Pid).getLastD INVALID_PAGE_ID) =
      some (.leaf (leafOf (tree123.fetch 1))) ∧
    (leafOf (tree123.fetch 1)).Exist 4 = (none, 2) ∧
    (leafOf (tree123.fetch 1)).size = (leafOf (tree123.fetch 1)).maxSize ∧
    ((LeafPage.GetBound 1 2).2 = true → 1 ≤ (LeafPage.GetBound 1 2).1) ∧
    tree123.Insert 4 40 50 =
      (let (bound, insertLeft) := LeafPage.GetBound 2 (leafOf (tree123.fetch 1)).size
       let halves := tree123.splitLeaf (leafOf (tree123.fetch 1)) bound
       let L := if insertLeft then (halves.1.1.Insert 4 40).2 else halves.1.1
       let R := if insertLeft then halves.1.2 else (halves.1.2.Insert 4 40).2
       let R := { R with next := L.next }
       let L := { L with next := halves.2.1 }
       ((halves.2.2.setPage (([2, 1] : List Pid).getLastD INVALID_PAGE_ID)
          (.leaf L)).setPage halves.2.1 (.leaf R)).insertInternalAux
         ([2, 1] : List Pid).dropLast.reverse (R.KeyAt 0) halves.2.1) :=
  ⟨by decide, rfl, rfl, rfl, rfl, rfl,
    (C2_split_rule.2.2.2.1 1 2 (by decide)).1,
    C2_split_rule.2.2.2.2 tree123 4 40 50 [2, 1] [(1, 1)]
      (leafOf (tree123.fetch 1)) 2 rfl rfl rfl rfl rfl⟩

/-- C3 (code bug): with `leaf_max_size = 2`, `internal_max_size = 3`,
inserting keys 1, 2, 3 and then scanning from `Begin()` by repeated
increment until `IsEnd` visits `(1,10), (2,20), (2,20), (3,30)`: the
stale slot the first leaf kept after its split is visited because
`operator++` hops leaves at `max_size − 1` instead of `size − 1`, so the
visited keys are not the inserted key set and are not strictly
increasing (not pairwise `<`). -/
theorem C3_traversal_visits_stale_entries :
    ((((BPlusTree.new 0 2 3).Insert 1 10 50).bind
        (fun r => r.2.Insert 2 20 50)).bind
        (fun r => r.2.Insert 3 30 50)).map (fun r => r.2.scanAll 60)
      = some (some [(1, 10), (2, 20), (2, 20), (3, 30)]) ∧
    [(1, 10), (2, 20), (2, 20), (3, 30)].map Prod.fst = [1, 2, 2, 3] ∧
    ¬([1, 2, 2, 3] : List Key).Nodup ∧
    ¬List.Pairwise (fun a b => a < b) ([1, 2, 2, 3] : List Key) := by
  refine ⟨rfl, rfl, by decide, ?_⟩
  intro h
  rcases List.pairwise_cons.mp h with ⟨-, h₂⟩
  rcases List.pairwise_cons.mp h₂ with ⟨h₃, -⟩
  have : (2 : Key) < 2 := h₃ 2 (by simp)
  exact absurd this (by simp)

/-- C5: `unpin_page(page_id, dirty)` returns false and leaves the pool
unchanged when the page id is unmapped or the pin count is zero;
otherwise it returns true, decrements the pin count, ORs the dirty
argument into the frame's dirty bit (never clearing a set bit), marks the
frame evictable in the replacer exactly when the pin count reaches zero,
and touches nothing else. -/
theorem C5_unpin_semantics (s : BufferPoolManager) (pageId : Pid) (d : Bool) :
    (alistLookup s.pageTable pageId = none → s.UnpinPage pageId d = (false, s)) ∧
    (∀ frame, alistLookup s.pageTable pageId = some frame →
      (s.pages.getD frame default).pinCount = 0 → s.UnpinPage pageId d = (false, s)) ∧
    (∀ frame, alistLookup s.pageTable pageId = some frame →
      0 < (s.pages.getD frame default).pinCount →
      (s.UnpinPage pageId d).1 = true ∧
      (s.UnpinPage pageId d).2.pages = s.pages.set frame
        { s.pages.getD frame default with
            pinCount := (s.pages.getD frame default).pinCount - 1,
            isDirty := (s.pages.getD frame default).isDirty || d } ∧
      (s.UnpinPage pageId d).2.pageTable = s.pageTable ∧
      (s.UnpinPage pageId d).2.freeList = s.freeList ∧
      (s.UnpinPage pageId d).2.nextPageId = s.nextPageId ∧
      ((s.pages.getD frame default).pinCount = 1 →
        (s.UnpinPage pageId d).2.replacer = s.replacer.SetEvictable frame true) ∧
      (1 < (s.pages.getD frame default).pinCount →
        (s.UnpinPage pageId d).2.replacer = s.replacer)) := by
  refine ⟨fun h => ?_, fun frame h hp => ?_, fun frame h hp => ?_⟩
  · simp only [BufferPoolManager.UnpinPage, h]
  · simp only [BufferPoolManager.UnpinPage, h]
    rw [if_pos hp]
  · have hnz : ¬(s.pages.getD frame default).pinCount = 0 := by omega
    simp only [BufferPoolManager.UnpinPage, h]
    rw [if_neg hnz]
    by_cases hone : (s.pages.getD frame default).pinCount = 1
    · rw [if_pos (by omega : (s.pages.getD frame default).pinCount - 1 = 0)]
      exact ⟨rfl, rfl, rfl, rfl, rfl, fun _ => rfl, fun hc => absurd hone (by omega)⟩
    · rw [if_neg (by omega : ¬(s.pages.getD frame default).pinCount - 1 = 0)]
      exact ⟨rfl, rfl, rfl, rfl, rfl, fun hc => absurd hc hone, fun _ => rfl⟩

/-- Witness for C5 at a one-frame pool holding page 5 pinned once. -/
theorem C5_unpin_semantics_witness :
    alistLookup poolC5.pageTable 5 = some 0 ∧
    0 < (poolC5.pages.getD 0 default).pinCount ∧
    (poolC5.UnpinPage 5 true).1 = true :=
  ⟨rfl, by decide, ((C5_unpin_semantics poolC5 5 true).2.2 0 rfl (by decide)).1⟩

/-- C6 counterexample: a transaction in `RepeatableRead`/`Growing` holding
no table lock at all requests a shared row lock: `LockRow` neither aborts
nor throws — `CheckLockRow` has no check for S mode — contradicting the
claim that it aborts with `TableLockNotPresent`. -/
theorem C6_counterexample :
    LockRowPrecheck { txnId := 1, isolation := .RepeatableRead, state := .Growing } .S 9
      = .ok (some { txnId := 1, isolation := .RepeatableRead, state := .Growing }) := rfl

/-- C6 (amended): for a request that reaches the row-lock checks (state
Growing, RepeatableRead): an X row lock aborts with `TableLockNotPresent`
exactly when the transaction holds none of X, IX, SIX on the table; an S
row lock is never table-checked and always passes on; the intention modes
abort with `AttemptedIntentionLockOnRow`. -/
theorem C6_row_lock_checks (txn : Transaction) (oid : Nat)
    (hstate : txn.state = .Growing) (hiso : txn.isolation = .RepeatableRead) :
    (¬txn.IsTableExclusiveLocked oid ∧ ¬txn.IsTableIntentionExclusiveLocked oid ∧
        ¬txn.IsTableSharedIntentionExclusiveLocked oid →
      LockRowPrecheck txn .X oid = .error (txn.setState .Aborted, .TableLockNotPresent)) ∧
    (txn.IsTableExclusiveLocked oid ∨ txn.IsTableIntentionExclusiveLocked oid ∨
        txn.IsTableSharedIntentionExclusiveLocked oid →
      LockRowPrecheck txn .X oid = .ok (some txn)) ∧
    LockRowPrecheck txn .S oid = .ok (some txn) ∧
    (∀ m, m = LockMode.IS ∨ m = LockMode.IX ∨ m = LockMode.SIX →
      LockRowPrecheck txn m oid = .error (txn.setState .Aborted, .AttemptedIntentionLockOnRow)) := by
  have hskip : ¬(txn.state = TransactionState.Committed ∨ txn.state = TransactionState.Aborted) := by
    rw [hstate]; rintro (h | h) <;> exact absurd h (by decide)
  have hiso' : ∀ m, CheckIsolation txn m = .ok txn := by
    intro m
    simp only [CheckIsolation, hiso, hstate]
    rw [if_neg (by rintro h; exact absurd h (by decide))]
  refine ⟨fun hnone => ?_, fun hsome => ?_, ?_, fun m hm => ?_⟩
  · simp only [LockRowPrecheck, hskip, if_false, hiso', CheckLockRow, hnone, and_self,
      if_pos]
    simp [hnone]
  · simp only [LockRowPrecheck, hskip, if_false, hiso', CheckLockRow]
    rw [if_neg (by tauto)]
  · simp only [LockRowPrecheck, hskip, if_false, hiso', CheckLockRow]
  · rcases hm with rfl | rfl | rfl <;>
      simp only [LockRowPrecheck, hskip, if_false, hiso', CheckLockRow]

/-- Witness for C6 at a concrete growing RepeatableRead transaction: an X
row lock without any table intent aborts with `TableLockNotPresent`. -/
theorem C6_row_lock_checks_witness :
    ({ txnId := 3, isolation := .RepeatableRead, state := .Growing } : Transaction).state
      = TransactionState.Growing ∧
    ({ txnId := 3, isolation := .RepeatableRead, state := .Growing } : Transaction).isolation
      = IsolationLevel.RepeatableRead ∧
    LockRowPrecheck { txnId := 3, isolation := .RepeatableRead, state := .Growing } .X 9
      = .error (({ txnId := 3, isolation := .RepeatableRead,
                   state := .Growing } : Transaction).setState .Aborted, .TableLockNotPresent) :=
  ⟨rfl, rfl,
    (C6_row_lock_checks { txnId := 3, isolation := .RepeatableRead, state := .Growing } 9
      rfl rfl).1 (by decide)⟩

/-- C7 counterexample: a `RepeatableRead` transaction releasing a granted
IS table lock (no rows held) succeeds but keeps state `Growing`: under
RepeatableRead only released S or X locks move the transaction to
Shrinking, contradicting the claim's "regardless of the mode". -/
theorem C7_counterexample :
    UnlockTable { txnId := 2, isolation := .RepeatableRead, state := .Growing,
                  intentionSharedTableLockSet := [5] } 5
        (some [{ txnId := 2, mode := .IS, oid := 5, granted := true }])
      = .ok ({ txnId := 2, isolation := .RepeatableRead, state := .Growing,
               intentionSharedTableLockSet := [] }, []) ∧
    ({ txnId := 2, isolation := .RepeatableRead, state := .Growing,
       intentionSharedTableLockSet := [] } : Transaction).state ≠ .Shrinking :=
  ⟨rfl, by decide⟩

/-- C7 (amended): the state transition applied by every successful
`unlock_table` and non-force `unlock_row` sets the state to Shrinking
exactly on the triggering combinations — RepeatableRead with a released S
or X lock, ReadCommitted/ReadUncommitted with a released X lock — and
leaves the transaction untouched otherwise; every successful unlock goes
through that transition with the released request's mode, and
`unlock_row` with `force` never changes the transaction state. -/
theorem C7_shrinking_transition :
    (∀ (txn : Transaction) (mode : LockMode),
      (txn.isolation = .RepeatableRead ∧ (mode = .S ∨ mode = .X)) ∨
        ((txn.isolation = .ReadCommitted ∨ txn.isolation = .ReadUncommitted) ∧ mode = .X) →
      (UnlockStateTransition txn mode).state = .Shrinking) ∧
    (∀ (txn : Transaction) (mode : LockMode),
      ¬((txn.isolation = .RepeatableRead ∧ (mode = .S ∨ mode = .X)) ∨
        ((txn.isolation = .ReadCommitted ∨ txn.isolation = .ReadUncommitted) ∧ mode = .X)) →
      UnlockStateTransition txn mode = txn) ∧
    (∀ (txn : Transaction) (oid : Nat) (q : List LockRequest) txn' q',
      UnlockTable txn oid (some q) = .ok (txn', q') →
      ∃ lr ∈ q, lr.granted = true ∧ lr.txnId = txn.txnId ∧
        txn' = ModifyTableLockSetDelete (UnlockStateTransition txn lr.mode) lr) ∧
    (∀ (txn : Transaction) (q : List LockRequest) txn' q',
      UnlockRow txn false (some q) = .ok (txn', q') →
      ∃ lr ∈ q, lr.granted = true ∧ lr.txnId = txn.txnId ∧
        txn' = ModifyRowLockSetDelete (UnlockStateTransition txn lr.mode) lr) ∧
    (∀ (txn : Transaction) (q : List LockRequest) txn' q',
      UnlockRow txn true (some q) = .ok (txn', q') → txn'.state = txn.state) := by
  have hscanT : ∀ (txn : Transaction) (q : List LockRequest) txn' q',
      UnlockTableScan txn q = .ok (txn', q') →
      ∃ lr ∈ q, lr.granted = true ∧ lr.txnId = txn.txnId ∧
        txn' = ModifyTableLockSetDelete (UnlockStateTransition txn lr.mode) lr := by
    intro txn q
    induction q with
    | nil => intro txn' q' h; exact absurd h (by simp [UnlockTableScan])
    | cons lr rest ih =>
      intro txn' q' h
      by_cases hg : lr.granted = true ∧ lr.txnId = txn.txnId
      · refine ⟨lr, by simp, hg.1, hg.2, ?_⟩
        simp only [UnlockTableScan, if_pos hg, Except.ok.injEq, Prod.mk.injEq] at h
        exact h.1.symm
      · simp only [UnlockTableScan, if_neg hg] at h
        cases hrec : UnlockTableScan txn rest with
        | error e => rw [hrec] at h; exact absurd h (by simp)
        | ok p =>
          rw [hrec] at h
          rcases p with ⟨txn₁, rest₁⟩
          simp only [Except.ok.injEq, Prod.mk.injEq] at h
          rcases ih txn₁ rest₁ hrec with ⟨lr₀, hmem, hg₀, hid₀, heq₀⟩
          exact ⟨lr₀, by simp [hmem], hg₀, hid₀, h.1 ▸ heq₀⟩
  have hscanR : ∀ (txn : Transaction) (force : Bool) (q : List LockRequest) txn' q',
      UnlockRowScan txn force q = .ok (txn', q') →
      ∃ lr ∈ q, lr.granted = true ∧ lr.txnId = txn.txnId ∧
        txn' = ModifyRowLockSetDelete
          (if force then txn else UnlockStateTransition txn lr.mode) lr := by
    intro txn force q
    induction q with
    | nil => intro txn' q' h; exact absurd h (by simp [UnlockRowScan])
    | cons lr rest ih =>
      intro txn' q' h
      by_cases hg : lr.granted = true ∧ lr.txnId = txn.txnId
      · refine ⟨lr, by simp, hg.1, hg.2, ?_⟩
        simp only [UnlockRowScan, if_pos hg, Except.ok.injEq, Prod.mk.injEq] at h
        exact h.1.symm
      · simp only [UnlockRowScan, if_neg hg] at h
        cases hrec : UnlockRowScan txn force rest with
        | error e => rw [hrec] at h; exact absurd h (by simp)
        | ok p =>
          rw [hrec] at h
          rcases p with ⟨txn₁, rest₁⟩
          simp only [Except.ok.injEq, Prod.mk.injEq] at h
          rcases ih txn₁ rest₁ hrec with ⟨lr₀, hmem, hg₀, hid₀, heq₀⟩
          exact ⟨lr₀, by simp [hmem], hg₀, hid₀, h.1 ▸ heq₀⟩
  refine ⟨?_, ?_, ?_, ?_, ?_⟩
  · rintro txn mode (⟨hiso, hm⟩ | ⟨hiso, hm⟩)
    · rcases hm with rfl | rfl <;> simp [UnlockStateTransition, hiso, Transaction.setState]
    · rcases hiso with hiso | hiso <;>
        simp [UnlockStateTransition, hiso, hm, Transaction.setState]
  · intro txn mode hno
    cases hiso : txn.isolation with
    | RepeatableRead =>
      have : ¬(mode = LockMode.S ∨ mode = LockMode.X) := fun hm => hno (Or.inl ⟨hiso, hm⟩)
      simp [UnlockStateTransition, hiso, this]
    | ReadCommitted =>
      have : ¬mode = LockMode.X := fun hm => hno (Or.inr ⟨Or.inl hiso, hm⟩)
      simp [UnlockStateTransition, hiso, this]
    | ReadUncommitted =>
      have : ¬mode = LockMode.X := fun hm => hno (Or.inr ⟨Or.inr hiso, hm⟩)
      simp [UnlockStateTransition, hiso, this]
  · intro txn oid q txn' q' h
    simp only [UnlockTable] at h
    by_cases hr : HasRowLocksOn txn oid = true
    · rw [if_pos hr] at h; exact absurd h (by simp)
    · rw [if_neg hr] at h; exact hscanT txn q txn' q' h
  · intro txn q txn' q' h
    simp only [UnlockRow] at h
    rcases hscanR txn false q txn' q' h with ⟨lr, hmem, hg, hid, heq⟩
    exact ⟨lr, hmem, hg, hid, by simpa using heq⟩
  · intro txn q txn' q' h
    simp only [UnlockRow] at h
    rcases hscanR txn true q txn' q' h with ⟨lr, hmem, hg, hid, heq⟩
    rw [heq]
    cases hlm : lr.mode <;> simp [ModifyRowLockSetDelete, hlm]

/-- Witness for C7: a RepeatableRead transaction releasing an S lock moves
to Shrinking. -/
theorem C7_shrinking_transition_witness :
    (({ txnId := 4, isolation := .RepeatableRead, state := .Growing } : Transaction).isolation
        = IsolationLevel.RepeatableRead ∧ (LockMode.S = LockMode.S ∨ LockMode.S = LockMode.X)) ∧
    (UnlockStateTransition { txnId := 4, isolation := .RepeatableRead, state := .Growing }
        LockMode.S).state = TransactionState.Shrinking :=
  ⟨⟨rfl, Or.inl rfl⟩,
    C7_shrinking_transition.1 { txnId := 4, isolation := .RepeatableRead, state := .Growing }
      LockMode.S (Or.inl ⟨rfl, Or.inl rfl⟩)⟩

theorem evictScan_none (l : List LRUKNode) (h : evictScan l = none) :
    ∀ n ∈ l, n.isEvictable = false := by
  induction l with
  | nil => simp
  | cons a rest ih =>
    simp only [evictScan] at h
    cases hscan : evictScan rest with
    | some p => rw [hscan] at h; exact absurd h (by simp)
    | none =>
      rw [hscan] at h
      by_cases hev : a.isEvictable = true
      · rw [if_pos hev] at h; exact absurd h (by simp)
      · intro n hn
        rcases List.mem_cons.mp hn with rfl | hn
        · exact Bool.not_eq_true _ ▸ hev
        · exact ih hscan n hn

theorem evictScan_some (l : List LRUKNode) (f : Nat) (l' : List LRUKNode)
    (h : evictScan l = some (f, l')) :
    ∃ pre n post, l = pre ++ n :: post ∧ n.isEvictable = true ∧ f = n.fid ∧
      l' = pre ++ post ∧ ∀ m ∈ post, m.isEvictable = false := by
  induction l generalizing f l' with
  | nil => exact absurd h (by simp [evictScan])
  | cons a rest ih =>
    simp only [evictScan] at h
    cases hscan : evictScan rest with
    | some p =>
      rw [hscan] at h
      rcases p with ⟨f₀, rest'⟩
      simp only [Option.some.injEq, Prod.mk.injEq] at h
      rcases ih f₀ rest' hscan with ⟨pre, n, post, hl, hev, hf, hl', hpost⟩
      exact ⟨a :: pre, n, post, by simp [hl], hev, by rw [← h.1, hf],
        by simp [← h.2, hl'], hpost⟩
    | none =>
      rw [hscan] at h
      by_cases hev : a.isEvictable = true
      · rw [if_pos hev] at h
        simp only [Option.some.injEq, Prod.mk.injEq] at h
        exact ⟨[], a, rest, rfl, hev, h.1.symm, by simp [h.2.symm], evictScan_none rest hscan⟩
      · rw [if_neg hev] at h; exact absurd h (by simp)

theorem eraseNode_append (pre post : List LRUKNode) (n : LRUKNode)
    (h : ∀ m ∈ pre, m.fid ≠ n.fid) :
    eraseNode (pre ++ n :: post) n.fid = pre ++ post := by
  induction pre with
  | nil => simp [eraseNode]
  | cons a rest ih =>
    have ha : a.fid ≠ n.fid := h a (by simp)
    simp only [List.cons_append, eraseNode, if_neg ha, List.append_eq]
    rw [ih (fun m hm => h m (by simp [hm]))]

/-- C4: on every well-formed replacer state with at least one evictable
frame, `Evict` removes and returns the evictable frame with the largest
backward K-distance: it serves the history cohort oldest-inserted-first
whenever that cohort has an evictable frame (all of infinite distance),
and only otherwise serves the cache cohort in ascending order of
oldest-of-last-K timestamp; the victim's cohort list and counters are updated. -/
theorem C4_evict_largest_k_distance (s : LRUKReplacer) (h : ReplacerWf s)
    (hex : 0 < s.Size) :
    ∃ n : LRUKNode, (s.Evict).1 = some n.fid ∧ n.isEvictable = true ∧
      (n ∈ s.fifo ∨ n ∈ s.lru) ∧
      (∀ m, (m ∈ s.fifo ∨ m ∈ s.lru) → m.isEvictable = true →
        specBackwardKDistance s.k s.currentTimestamp m ≤
          specBackwardKDistance s.k s.currentTimestamp n) ∧
      (0 < s.evictableCntFifo →
        n ∈ s.fifo ∧ (∀ m ∈ s.fifo, m.isEvictable = true → n.oldest ≤ m.oldest) ∧
        (s.Evict).2 = { s with fifo := eraseNode s.fifo n.fid,
                               evictableCntFifo := s.evictableCntFifo - 1,
                               currSize := s.currSize - 1 }) ∧
      (s.evictableCntFifo = 0 →
        n ∈ s.lru ∧
        (s.Evict).2 = { s with lru := eraseNode s.lru n.fid,
                               evictableCntLru := s.evictableCntLru - 1,
                               currSize := s.currSize - 1 }) := by
  obtain ⟨hfk, hlk, hfs, hls, hnd, hcf, hcl⟩ := h
  by_cases hf : 0 < s.evictableCntFifo
  · -- history cohort serves the victim
    have hfilter : s.fifo.filter (fun n => n.isEvictable) ≠ [] := by
      intro hempty
      rw [hcf, hempty] at hf
      exact absurd hf (by simp)
    have hsome : evictScan s.fifo ≠ none := by
      intro hnone
      refine hfilter (List.filter_eq_nil_iff.mpr ?_)
      intro n hn
      simp [evictScan_none s.fifo hnone n hn]
    cases hscan : evictScan s.fifo with
    | none => exact absurd hscan hsome
    | some p =>
      rcases p with ⟨f, l'⟩
      rcases evictScan_some s.fifo f l' hscan with ⟨pre, n, post, hl, hev, hfeq, hl', hpost⟩
      have hne : ¬(s.fifo.isEmpty ∧ s.lru.isEmpty) := by
        rintro ⟨h₁, -⟩
        rw [hl] at h₁
        simp at h₁
      have hpre : ∀ m ∈ pre, n.oldest < m.oldest := by
        intro m hm
        rw [hl] at hfs
        exact (List.pairwise_append.mp hfs).2.2 m hm n (by simp)
      have hnfifo : n ∈ s.fifo := by rw [hl]; simp
      have hpreFid : ∀ m ∈ pre, m.fid ≠ n.fid := by
        intro m hm heq
        have hnodup : (s.fifo.map (fun x => x.fid)).Nodup :=
          (List.nodup_append.mp (by rw [← List.map_append]; exact hnd)).1
        rw [hl, List.map_append] at hnodup
        exact (List.nodup_append.mp hnodup).2.2 (List.mem_map_of_mem _ hm) (by simp [heq])
      refine ⟨n, ?_, hev, Or.inl hnfifo, ?_, fun _ => ?_, fun h0 => absurd hf (by omega)⟩
      · simp only [LRUKReplacer.Evict, if_neg hne, if_pos hf, hscan, hfeq]
      · intro m _ _
        have : specBackwardKDistance s.k s.currentTimestamp n = ⊤ := by
          simp [specBackwardKDistance, (hfk n hnfifo).1]
        rw [this]
        exact le_top
      · refine ⟨hnfifo, ?_, ?_⟩
        · intro m hm hmev
          rw [hl] at hm
          rcases List.mem_append.mp hm with hm | hm
          · exact le_of_lt (hpre m hm)
          · rcases List.mem_cons.mp hm with rfl | hm
            · exact le_refl _
            · rw [hpost m hm] at hmev; exact absurd hmev (by simp)
        · simp only [LRUKReplacer.Evict, if_neg hne, if_pos hf, hscan, hfeq]
          rw [hl, eraseNode_append pre post n hpreFid, ← hl']
  · -- cache cohort serves the victim
    have hf0 : s.evictableCntFifo = 0 := by omega
    have hl0 : 0 < s.evictableCntLru := by
      have := hex
      simp only [LRUKReplacer.Size] at this
      omega
    have hfifoNone : ∀ m ∈ s.fifo, m.isEvictable = false := by
      intro m hm
      by_cases hme : m.isEvictable = true
      · have : m ∈ s.fifo.filter (fun n => n.isEvictable) := List.mem_filter.mpr ⟨hm, hme⟩
        have hlen : 0 < (s.fifo.filter (fun n => n.isEvictable)).length :=
          List.length_pos.mpr (fun hempty => by rw [hempty] at this; simp at this)
        rw [← hcf] at hlen
        omega
      · exact Bool.not_eq_true _ ▸ hme
    have hfscan : evictScan s.fifo = none := by
      cases hscan : evictScan s.fifo with
      | none => rfl
      | some p =>
        rcases p with ⟨f, l'⟩
        rcases evictScan_some s.fifo f l' hscan with ⟨pre, n, post, hl, hev, -, -, -⟩
        rw [hfifoNone n (by rw [hl]; simp)] at hev
        exact absurd hev (by simp)
    have hlfilter : s.lru.filter (fun n => n.isEvictable) ≠ [] := by
      intro hempty
      rw [hcl, hempty] at hl0
      exact absurd hl0 (by simp)
    have hsome : evictScan s.lru ≠ none := by
      intro hnone
      refine hlfilter (List.filter_eq_nil_iff.mpr ?_)
      intro n hn
      simp [evictScan_none s.lru hnone n hn]
    cases hscan : evictScan s.lru with
    | none => exact absurd hscan hsome
    | some p =>
      rcases p with ⟨f, l'⟩
      rcases evictScan_some s.lru f l' hscan with ⟨pre, n, post, hl, hev, hfeq, hl', hpost⟩
      have hne : ¬(s.fifo.isEmpty ∧ s.lru.isEmpty) := by
        rintro ⟨-, h₂⟩
        rw [hl] at h₂
        simp at h₂
      have hnlru : n ∈ s.lru := by rw [hl]; simp
      have hpre : ∀ m ∈ pre, n.oldest < m.oldest := by
        intro m hm
        rw [hl] at hls
        exact (List.pairwise_append.mp hls).2.2 m hm n (by simp)
      have hpreFid : ∀ m ∈ pre, m.fid ≠ n.fid := by
        intro m hm heq
        have hnodup : (s.lru.map (fun x => x.fid)).Nodup :=
          (List.nodup_append.mp (by rw [← List.map_append]; exact hnd)).2.1
        rw [hl, List.map_append] at hnodup
        exact (List.nodup_append.mp hnodup).2.2 (List.mem_map_of_mem _ hm) (by simp [heq])
      have hdn : specBackwardKDistance s.k s.currentTimestamp n =
          ((s.currentTimestamp - n.oldest : Nat) : WithTop Nat) := by
        have := (hlk n hnlru).1
        simp only [specBackwardKDistance]
        rw [if_neg (by omega)]
      refine ⟨n, ?_, hev, Or.inr hnlru, ?_, fun h0 => absurd h0 (by omega), fun _ => ⟨hnlru, ?_⟩⟩
      · simp only [LRUKReplacer.Evict, if_neg hne, if_neg hf, if_pos hl0, hscan, hfeq]
      · intro m hm hmev
        rcases hm with hm | hm
        · rw [hfifoNone m hm] at hmev; exact absurd hmev (by simp)
        · have hdm : specBackwardKDistance s.k s.currentTimestamp m =
              ((s.currentTimestamp - m.oldest : Nat) : WithTop Nat) := by
            have := (hlk m hm).1
            simp only [specBackwardKDistance]
            rw [if_neg (by omega)]
          rw [hdm, hdn]
          have hmo : n.oldest ≤ m.oldest := by
            rw [hl] at hm
            rcases List.mem_append.mp hm with hm | hm
            · exact le_of_lt (hpre m hm)
            · rcases List.mem_cons.mp hm with rfl | hm
              · exact le_refl _
              · rw [hpost m hm] at hmev; exact absurd hmev (by simp)
          exact_mod_cast Nat.sub_le_sub_left hmo s.currentTimestamp
      · simp only [LRUKReplacer.Evict, if_neg hne, if_neg hf, if_pos hl0, hscan, hfeq]
        rw [hl, eraseNode_append pre post n hpreFid, ← hl']

/-- Witness for C4 at `replacerC4`: both hypotheses hold and the victim is
as the theorem describes. -/
theorem C4_evict_largest_k_distance_witness :
    ReplacerWf replacerC4 ∧ 0 < replacerC4.Size ∧
    (∃ n : LRUKNode, (replacerC4.Evict).1 = some n.fid ∧ n.isEvictable = true ∧
      (n ∈ replacerC4.fifo ∨ n ∈ replacerC4.lru) ∧
      (∀ m, (m ∈ replacerC4.fifo ∨ m ∈ replacerC4.lru) → m.isEvictable = true →
        specBackwardKDistance replacerC4.k replacerC4.currentTimestamp m ≤
          specBackwardKDistance replacerC4.k replacerC4.currentTimestamp n) ∧
      (0 < replacerC4.evictableCntFifo →
        n ∈ replacerC4.fifo ∧
        (∀ m ∈ replacerC4.fifo, m.isEvictable = true → n.oldest ≤ m.oldest) ∧
        (replacerC4.Evict).2 = { replacerC4 with
          fifo := eraseNode replacerC4.fifo n.fid,
          evictableCntFifo := replacerC4.evictableCntFifo - 1,
          currSize := replacerC4.currSize - 1 }) ∧
      (replacerC4.evictableCntFifo = 0 →
        n ∈ replacerC4.lru ∧
        (replacerC4.Evict).2 = { replacerC4 with
          lru := eraseNode replacerC4.lru n.fid,
          evictableCntLru := replacerC4.evictableCntLru - 1,
          currSize := replacerC4.currSize - 1 })) :=
  ⟨by unfold ReplacerWf DescByOldest; decide, by decide,
    C4_evict_largest_k_distance replacerC4 (by unfold ReplacerWf DescByOldest; decide) (by decide)⟩


/-- The target-iteration step inside `dfsVisit`, named for the proofs. -/
theorem dfsVisit_succ (g : WaitsFor) (fuel : Nat) (t : TxnId) (cyc searched : List TxnId) :
    dfsVisit g (fuel + 1) t cyc searched =
      (if t ∈ searched then some (false, cyc, searched)
       else if t ∈ cyc then some (true, cyc, searched)
       else
         match (graphTargets g t).foldl
             (fun acc target =>
               match acc with
               | none => none
               | some (true, cyc', searched') => some (true, cyc', searched')
               | some (false, cyc', searched') => dfsVisit g fuel target cyc' searched')
             (some (false, t :: cyc, searched)) with
         | none => none
         | some (true, cyc', searched') => some (true, cyc', searched')
         | some (false, cyc', searched') => some (false, cyc'.erase t, t :: searched')) := rfl

theorem foldl_none_fixed {β : Type}
    (f : Option (Bool × List TxnId × List TxnId) → β → Option (Bool × List TxnId × List TxnId))
    (hf : ∀ b, f none b = none) (l : List β) : l.foldl f none = none := by
  induction l with
  | nil => rfl
  | cons b rest ih => rw [List.foldl_cons, hf b, ih]

theorem foldl_true_fixed {β : Type}
    (f : Option (Bool × List TxnId × List TxnId) → β → Option (Bool × List TxnId × List TxnId))
    (c : List TxnId) (s : List TxnId)
    (hf : ∀ b, f (some (true, c, s)) b = some (true, c, s)) (l : List β) :
    l.foldl f (some (true, c, s)) = some (true, c, s) := by
  induction l with
  | nil => rfl
  | cons b rest ih => rw [List.foldl_cons, hf b, ih]

/-- A false result of `DFS` restores `cycle_set_` exactly (every node the
call pushed was erased on backtrack), together with the same fact for the
target loop. -/
theorem dfs_false_preserves (g : WaitsFor) (fuel : Nat) :
    (∀ t cyc searched c' s',
      dfsVisit g fuel t cyc searched = some (false, c', s') → c' = cyc) ∧
    (∀ (l : List TxnId) cyc searched c' s',
      l.foldl
          (fun acc target =>
            match acc with
            | none => none
            | some (true, cyc', searched') => some (true, cyc', searched')
            | some (false, cyc', searched') => dfsVisit g fuel target cyc' searched')
          (some (false, cyc, searched)) = some (false, c', s') → c' = cyc) := by
  induction fuel using Nat.strong_induction_on with
  | _ fuel ih =>
    have hvisit : ∀ t cyc searched c' s',
        dfsVisit g fuel t cyc searched = some (false, c', s') → c' = cyc := by
      match fuel with
      | 0 => intro t cyc searched c' s' h; exact absurd h (by simp [dfsVisit])
      | m + 1 =>
        intro t cyc searched c' s' h
        rw [dfsVisit_succ] at h
        by_cases hs : t ∈ searched
        · rw [if_pos hs] at h
          simp only [Option.some.injEq, Prod.mk.injEq] at h
          exact h.2.1.symm
        · rw [if_neg hs] at h
          by_cases hc : t ∈ cyc
          · rw [if_pos hc] at h
            simp at h
          · rw [if_neg hc] at h
            cases hfold : (graphTargets g t).foldl
                (fun acc target =>
                  match acc with
                  | none => none
                  | some (true, cyc', searched') => some (true, cyc', searched')
                  | some (false, cyc', searched') => dfsVisit g m target cyc' searched')
                (some (false, t :: cyc, searched)) with
            | none => rw [hfold] at h; simp at h
            | some r =>
              rw [hfold] at h
              rcases r with ⟨b, c₁, s₁⟩
              cases b with
              | true => simp at h
              | false =>
                simp only [Option.some.injEq, Prod.mk.injEq] at h
                have hc₁ : c₁ = t :: cyc := (ih m (by omega)).2 _ _ _ _ _ hfold
                rw [← h.2.1, hc₁]
                simp [List.erase_cons]
    refine ⟨hvisit, ?_⟩
    intro l
    induction l with
    | nil =>
      intro cyc searched c' s' h
      simp only [List.foldl_nil, Option.some.injEq, Prod.mk.injEq] at h
      exact h.2.1.symm
    | cons b rest ihl =>
      intro cyc searched c' s' h
      simp only [List.foldl_cons] at h
      cases hstep : dfsVisit g fuel b cyc searched with
      | none =>
        rw [hstep] at h
        rw [foldl_none_fixed _ (fun _ => rfl)] at h
        simp at h
      | some r =>
        rw [hstep] at h
        rcases r with ⟨bb, c₁, s₁⟩
        cases bb with
        | true =>
          rw [foldl_true_fixed _ c₁ s₁ (fun _ => rfl)] at h
          simp at h
        | false =>
          have hc₁ : c₁ = cyc := hvisit _ _ _ _ _ hstep
          rw [hc₁] at h
          exact ihl _ _ _ _ h

theorem alistLookup_mem {α β : Type} [DecidableEq α] (l : List (α × β)) (a : α) (b : β)
    (h : alistLookup l a = some b) : (a, b) ∈ l := by
  induction l with
  | nil => simp [alistLookup] at h
  | cons e rest ih =>
    rcases e with ⟨k, v⟩
    simp only [alistLookup] at h
    by_cases he : k = a
    · rw [if_pos he] at h
      simp only [Option.some.injEq] at h
      rw [← he, ← h]
      exact List.mem_cons_self _ _
    · rw [if_neg he] at h
      exact List.mem_cons_of_mem _ (ih h)

theorem targets_subset_nodes (g : WaitsFor) (t x : TxnId) (hx : x ∈ graphTargets g t) :
    x ∈ nodesOf g := by
  simp only [graphTargets] at hx
  cases hl : alistLookup g t with
  | none => rw [hl] at hx; simp at hx
  | some l =>
    rw [hl] at hx
    simp only [Option.getD_some] at hx
    have hmem := alistLookup_mem g t l hl
    simp only [nodesOf, List.mem_append]
    right
    exact List.mem_flatMap.mpr ⟨(t, l), hmem, hx⟩

theorem nodup_length_le_nodeCard (g : WaitsFor) (cyc : List TxnId)
    (hnd : cyc.Nodup) (hsub : ∀ x ∈ cyc, x ∈ nodesOf g) :
    cyc.length ≤ nodeCard g := by
  have h₁ : cyc.toFinset.card = cyc.length := List.toFinset_card_of_nodup hnd
  have h₂ : cyc.toFinset ⊆ (nodesOf g).toFinset := by
    intro x hx
    exact List.mem_toFinset.mpr (hsub x (List.mem_toFinset.mp hx))
  rw [← h₁]
  exact Finset.card_le_card h₂

/-- With more fuel than the graph has distinct nodes (relative to the
stack already held), `DFS` cannot run out: the model's `none` is
unreachable. -/
theorem dfs_total (g : WaitsFor) (fuel : Nat) :
    (∀ t cyc searched, t ∈ nodesOf g → cyc.Nodup → (∀ x ∈ cyc, x ∈ nodesOf g) →
      nodeCard g < fuel + cyc.length → dfsVisit g fuel t cyc searched ≠ none) ∧
    (∀ (l : List TxnId) cyc searched, (∀ x ∈ l, x ∈ nodesOf g) → cyc.Nodup →
      (∀ x ∈ cyc, x ∈ nodesOf g) → nodeCard g < fuel + cyc.length →
      l.foldl
          (fun acc target =>
            match acc with
            | none => none
            | some (true, cyc', searched') => some (true, cyc', searched')
            | some (false, cyc', searched') => dfsVisit g fuel target cyc' searched')
          (some (false, cyc, searched)) ≠ none) := by
  induction fuel using Nat.strong_induction_on with
  | _ fuel ih =>
    have hvisit : ∀ t cyc searched, t ∈ nodesOf g → cyc.Nodup →
        (∀ x ∈ cyc, x ∈ nodesOf g) → nodeCard g < fuel + cyc.length →
        dfsVisit g fuel t cyc searched ≠ none := by
      match fuel with
      | 0 =>
        intro t cyc searched ht hnd hsub hb
        have := nodup_length_le_nodeCard g cyc hnd hsub
        omega
      | m + 1 =>
        intro t cyc searched ht hnd hsub hb
        rw [dfsVisit_succ]
        by_cases hs : t ∈ searched
        · rw [if_pos hs]; simp
        · rw [if_neg hs]
          by_cases hc : t ∈ cyc
          · rw [if_pos hc]; simp
          · rw [if_neg hc]
            have hfold := (ih m (by omega)).2 (graphTargets g t) (t :: cyc) searched
              (fun x hx => targets_subset_nodes g t x hx)
              (List.nodup_cons.mpr ⟨hc, hnd⟩)
              (by intro x hx
                  rcases List.mem_cons.mp hx with rfl | hx
                  · exact ht
                  · exact hsub x hx)
              (by simp only [List.length_cons]; omega)
            cases hres : (graphTargets g t).foldl
                (fun acc target =>
                  match acc with
                  | none => none
                  | some (true, cyc', searched') => some (true, cyc', searched')
                  | some (false, cyc', searched') => dfsVisit g m target cyc' searched')
                (some (false, t :: cyc, searched)) with
            | none => exact absurd hres hfold
            | some r =>
              rcases r with ⟨b, c₁, s₁⟩
              cases b <;> simp
    refine ⟨hvisit, ?_⟩
    intro l
    induction l with
    | nil => intro cyc searched _ _ _ _; simp
    | cons b rest ihl =>
      intro cyc searched hsubl hnd hsub hb
      simp only [List.foldl_cons]
      cases hstep : dfsVisit g fuel b cyc searched with
      | none =>
        exact absurd hstep (hvisit b cyc searched (hsubl b (by simp)) hnd hsub hb)
      | some r =>
        rcases r with ⟨bb, c₁, s₁⟩
        cases bb with
        | true =>
          rw [foldl_true_fixed _ c₁ s₁ (fun _ => rfl)]
          simp
        | false =>
          have hc₁ : c₁ = cyc := (dfs_false_preserves g fuel).1 _ _ _ _ _ hstep
          rw [hc₁]
          exact ihl cyc s₁ (fun x hx => hsubl x (by simp [hx])) hnd hsub hb

/-- A true result of `DFS` leaves in `cycle_set_` a genuine directed path
of the graph (head deepest) whose head has an edge back into the set. -/
theorem dfs_sound (g : WaitsFor) (fuel : Nat) :
    (∀ t cyc searched c' s', StackChain g (t :: cyc) →
      dfsVisit g fuel t cyc searched = some (true, c', s') →
      c' ≠ [] ∧ StackChain g c' ∧ ∃ c ∈ c', hasEdge g (c'.headD 0) c) ∧
    (∀ (l : List TxnId) cyc searched c' s', cyc ≠ [] → StackChain g cyc →
      (∀ x ∈ l, hasEdge g (cyc.headD 0) x) →
      l.foldl
          (fun acc target =>
            match acc with
            | none => none
            | some (true, cyc', searched') => some (true, cyc', searched')
            | some (false, cyc', searched') => dfsVisit g fuel target cyc' searched')
          (some (false, cyc, searched)) = some (true, c', s') →
      c' ≠ [] ∧ StackChain g c' ∧ ∃ c ∈ c', hasEdge g (c'.headD 0) c) := by
  induction fuel using Nat.strong_induction_on with
  | _ fuel ih =>
    have hvisit : ∀ t cyc searched c' s', StackChain g (t :: cyc) →
        dfsVisit g fuel t cyc searched = some (true, c', s') →
        c' ≠ [] ∧ StackChain g c' ∧ ∃ c ∈ c', hasEdge g (c'.headD 0) c := by
      match fuel with
      | 0 => intro t cyc searched c' s' _ h; exact absurd h (by simp [dfsVisit])
      | m + 1 =>
        intro t cyc searched c' s' hchain h
        rw [dfsVisit_succ] at h
        by_cases hs : t ∈ searched
        · rw [if_pos hs] at h; simp at h
        · rw [if_neg hs] at h
          by_cases hc : t ∈ cyc
          · rw [if_pos hc] at h
            simp only [Option.some.injEq, Prod.mk.injEq] at h
            obtain ⟨-, hcyc, -⟩ := h
            subst hcyc
            cases cyc with
            | nil => simp at hc
            | cons c₀ rest =>
              have hcons := List.chain'_cons.mp hchain
              exact ⟨by simp, hcons.2, ⟨t, hc, by simpa using hcons.1⟩⟩
          · rw [if_neg hc] at h
            cases hfold : (graphTargets g t).foldl
                (fun acc target =>
                  match acc with
                  | none => none
                  | some (true, cyc', searched') => some (true, cyc', searched')
                  | some (false, cyc', searched') => dfsVisit g m target cyc' searched')
                (some (false, t :: cyc, searched)) with
            | none => rw [hfold] at h; simp at h
            | some r =>
              rw [hfold] at h
              rcases r with ⟨b, c₁, s₁⟩
              cases b with
              | false => simp at h
              | true =>
                simp only [Option.some.injEq, Prod.mk.injEq] at h
                obtain ⟨-, hc₁, -⟩ := h
                subst hc₁
                exact (ih m (by omega)).2 (graphTargets g t) (t :: cyc) searched _ s₁
                  (by simp) hchain (fun x hx => hx) hfold
    refine ⟨hvisit, ?_⟩
    intro l
    induction l with
    | nil => intro cyc searched c' s' _ _ _ h; simp at h
    | cons b rest ihl =>
      intro cyc searched c' s' hne hchain hedges h
      simp only [List.foldl_cons] at h
      cases hstep : dfsVisit g fuel b cyc searched with
      | none =>
        rw [hstep, foldl_none_fixed _ (fun _ => rfl)] at h
        simp at h
      | some r =>
        rw [hstep] at h
        rcases r with ⟨bb, c₁, s₁⟩
        cases bb with
        | true =>
          rw [foldl_true_fixed _ c₁ s₁ (fun _ => rfl)] at h
          simp only [Option.some.injEq, Prod.mk.injEq] at h
          obtain ⟨-, hc₁, -⟩ := h
          subst hc₁
          have hbch : StackChain g (b :: cyc) := by
            cases cyc with
            | nil => exact absurd rfl hne
            | cons c₀ rest₀ =>
              exact List.chain'_cons.mpr ⟨by simpa using hedges b (by simp), hchain⟩
          exact hvisit b cyc searched _ s₁ hbch hstep
        | false =>
          have hc₁ : c₁ = cyc := (dfs_false_preserves g fuel).1 _ _ _ _ _ hstep
          rw [hc₁] at h
          exact ihl cyc s₁ c' s' hne hchain (fun x hx => hedges x (by simp [hx])) h

theorem foldl_max_le_acc (l : List TxnId) : ∀ acc : TxnId, acc ≤ l.foldl max acc := by
  induction l with
  | nil => intro acc; exact le_refl _
  | cons b rest ih =>
    intro acc
    exact le_trans (le_max_left acc b) (ih (max acc b))

theorem foldl_max_le (l : List TxnId) : ∀ (acc : TxnId), ∀ x ∈ l, x ≤ l.foldl max acc := by
  induction l with
  | nil => intro acc x hx; simp at hx
  | cons b rest ih =>
    intro acc x hx
    rcases List.mem_cons.mp hx with rfl | hx
    · exact le_trans (le_max_right acc x) (foldl_max_le_acc rest (max acc x))
    · exact ih (max acc b) x hx

theorem foldl_max_mem (l : List TxnId) : ∀ acc : TxnId,
    l.foldl max acc = acc ∨ l.foldl max acc ∈ l := by
  induction l with
  | nil => intro acc; left; rfl
  | cons b rest ih =>
    intro acc
    rcases ih (max acc b) with h | h
    · rw [List.foldl_cons, h]
      rcases max_choice acc b with hm | hm
      · left; exact hm
      · right; rw [hm]; simp
    · right; exact List.mem_cons_of_mem _ (by rw [List.foldl_cons]; exact h)

theorem le_maxTxnId (l : List TxnId) : ∀ x ∈ l, x ≤ maxTxnId l := by
  intro x hx
  exact foldl_max_le l (l.headD 0) x hx

theorem maxTxnId_mem (l : List TxnId) (h : l ≠ []) : maxTxnId l ∈ l := by
  rcases foldl_max_mem l (l.headD 0) with hm | hm
  · rw [maxTxnId, hm]
    cases l with
    | nil => exact absurd rfl h
    | cons a rest => simp
  · exact hm

theorem sortTxnIds_ins_eq (x : TxnId) (l : List TxnId) :
    sortTxnIds.ins x l = l.orderedInsert (fun a b => a ≤ b) x := by
  induction l with
  | nil => rfl
  | cons y ys ih =>
    simp only [sortTxnIds.ins, List.orderedInsert]
    by_cases h : x ≤ y
    · rw [if_pos h, if_pos h]
    · rw [if_neg h, if_neg h, ih]

theorem sortTxnIds_eq_insertionSort (l : List TxnId) :
    sortTxnIds l = l.insertionSort (fun a b => a ≤ b) := by
  induction l with
  | nil => rfl
  | cons t rest ih =>
    simp only [sortTxnIds, List.insertionSort]
    rw [sortTxnIds_ins_eq, ih]

theorem sortTxnIds_sorted (l : List TxnId) :
    List.Sorted (fun a b => a ≤ b) (sortTxnIds l) := by
  rw [sortTxnIds_eq_insertionSort]
  exact List.sorted_insertionSort _ l

theorem sortTxnIds_perm (l : List TxnId) : List.Perm (sortTxnIds l) l := by
  rw [sortTxnIds_eq_insertionSort]
  exact List.perm_insertionSort _ l

theorem hasCycleLoop_sound (g : WaitsFor) (fuel : Nat) (roots : List TxnId) :
    ∀ searched v S, hasCycleLoop g fuel roots searched = some (some (v, S)) →
      v = maxTxnId S ∧ S ≠ [] ∧ StackChain g S ∧ ∃ c ∈ S, hasEdge g (S.headD 0) c := by
  induction roots with
  | nil => intro searched v S h; simp [hasCycleLoop] at h
  | cons r rest ih =>
    intro searched v S h
    simp only [hasCycleLoop] at h
    cases hv : dfsVisit g fuel r [] searched with
    | none => rw [hv] at h; simp at h
    | some res =>
      rw [hv] at h
      rcases res with ⟨b, cyc, s₁⟩
      cases b with
      | true =>
        simp only [Option.some.injEq, Prod.mk.injEq] at h
        obtain ⟨hvv, hS⟩ := h
        subst hS
        have hsound := (dfs_sound g fuel).1 r [] searched cyc s₁
          (by simp [StackChain]) hv
        exact ⟨hvv.symm, hsound⟩
      | false =>
        exact ih s₁ v S h

theorem hasCycleLoop_total (g : WaitsFor) (fuel : Nat) (hb : nodeCard g < fuel)
    (roots : List TxnId) (hr : ∀ r ∈ roots, r ∈ nodesOf g) :
    ∀ searched, hasCycleLoop g fuel roots searched ≠ none := by
  induction roots with
  | nil => intro searched; simp [hasCycleLoop]
  | cons r rest ih =>
    intro searched
    simp only [hasCycleLoop]
    cases hv : dfsVisit g fuel r [] searched with
    | none =>
      exact absurd hv ((dfs_total g fuel).1 r [] searched (hr r (by simp))
        List.nodup_nil (by simp) (by simpa using hb))
    | some res =>
      rcases res with ⟨b, cyc, s₁⟩
      cases b with
      | true => simp
      | false => exact ih (fun x hx => hr x (by simp [hx])) s₁

/-- `HasCycle` soundness: a reported victim is the largest id on the DFS
path `S`, which is a genuine path of the graph closing into itself. -/
theorem HasCycle_sound (g : WaitsFor) (fuel : Nat) (v : TxnId) (S : List TxnId)
    (h : HasCycle g fuel = some (some (v, S))) :
    v = maxTxnId S ∧ v ∈ S ∧ (∀ x ∈ S, x ≤ v) ∧ S ≠ [] ∧ StackChain g S ∧
      ∃ c ∈ S, hasEdge g (S.headD 0) c := by
  obtain ⟨hv, hne, hchain, hclose⟩ := hasCycleLoop_sound g fuel _ [] v S h
  refine ⟨hv, ?_, ?_, hne, hchain, hclose⟩
  · rw [hv]; exact maxTxnId_mem S hne
  · intro x hx; rw [hv]; exact le_maxTxnId S x hx

theorem HasCycle_total (g : WaitsFor) (fuel : Nat) (hb : nodeCard g < fuel) :
    HasCycle g fuel ≠ none := by
  refine hasCycleLoop_total g fuel hb _ ?_ []
  intro r hr
  simp only [nodesOf, List.mem_append]
  left
  exact (sortTxnIds_perm _).mem_iff.mp hr

theorem chain_tail_out (g : WaitsFor) :
    ∀ (l : List TxnId) (a : TxnId), StackChain g (a :: l) →
      ∀ x ∈ l, ∃ y, hasEdge g x y := by
  intro l
  induction l with
  | nil => intro a _ x hx; simp at hx
  | cons b rest ih =>
    intro a hchain x hx
    have hcons := List.chain'_cons.mp hchain
    rcases List.mem_cons.mp hx with rfl | hx
    · exact ⟨a, hcons.1⟩
    · exact ih b hcons.2 x hx

theorem chain_all_out (g : WaitsFor) (l : List TxnId) (hchain : StackChain g l)
    (hclose : ∃ c ∈ l, hasEdge g (l.headD 0) c) :
    ∀ x ∈ l, ∃ y, hasEdge g x y := by
  cases l with
  | nil => intro x hx; simp at hx
  | cons a rest =>
    intro x hx
    rcases List.mem_cons.mp hx with rfl | hx
    · obtain ⟨c, -, hedge⟩ := hclose
      exact ⟨c, by simpa using hedge⟩
    · exact chain_tail_out g rest a hchain x hx

theorem hasEdge_key (g : WaitsFor) (v y : TxnId) (h : hasEdge g v y) :
    ∃ tl, alistLookup g v = some tl ∧ tl ≠ [] := by
  simp only [hasEdge, graphTargets] at h
  cases hl : alistLookup g v with
  | none => rw [hl] at h; simp at h
  | some tl =>
    rw [hl] at h
    simp only [Option.getD_some] at h
    exact ⟨tl, rfl, fun hnil => by rw [hnil] at h; simp at h⟩

theorem edgeCount_erase (g : WaitsFor) (v : TxnId) (tl : List TxnId)
    (h : alistLookup g v = some tl) :
    edgeCount g = edgeCount (alistErase g v) + tl.length := by
  induction g with
  | nil => simp [alistLookup] at h
  | cons e rest ih =>
    rcases e with ⟨k, l⟩
    simp only [alistLookup] at h
    by_cases hk : k = v
    · rw [if_pos hk] at h
      simp only [Option.some.injEq] at h
      simp only [alistErase, if_pos hk, edgeCount, List.map_cons, List.sum_cons, h]
      omega
    · rw [if_neg hk] at h
      simp only [alistErase, if_neg hk, edgeCount, List.map_cons, List.sum_cons]
      have := ih h
      simp only [edgeCount] at this
      omega

theorem edgeCount_eraseTargets_le (l : List (TxnId × List TxnId)) (v : TxnId) :
    edgeCount (l.map (fun e => (e.1, e.2.erase v))) ≤ edgeCount l := by
  induction l with
  | nil => simp [edgeCount]
  | cons e rest ih =>
    simp only [edgeCount, List.map_cons, List.sum_cons] at ih ⊢
    have := (List.erase_sublist v e.2).length_le
    omega

theorem edgeCount_removeAll_lt (g : WaitsFor) (v : TxnId) (tl : List TxnId)
    (h : alistLookup g v = some tl) (hne : tl ≠ []) :
    edgeCount (RemoveAllAboutAbortTxn g v) < edgeCount g := by
  have h₁ := edgeCount_erase g v tl h
  have h₂ := edgeCount_eraseTargets_le (alistErase g v) v
  have h₃ : 0 < tl.length := List.length_pos.mpr hne
  simp only [RemoveAllAboutAbortTxn]
  omega

theorem alistErase_subset {α β : Type} [DecidableEq α] (l : List (α × β)) (a : α) :
    ∀ e ∈ alistErase l a, e ∈ l := by
  induction l with
  | nil => simp [alistErase]
  | cons x rest ih =>
    rcases x with ⟨k, b⟩
    intro e he
    simp only [alistErase] at he
    by_cases hk : k = a
    · rw [if_pos hk] at he
      exact List.mem_cons_of_mem _ he
    · rw [if_neg hk] at he
      rcases List.mem_cons.mp he with rfl | he
      · exact List.mem_cons_self _ _
      · exact List.mem_cons_of_mem _ (ih e he)

theorem nodesOf_removeAll_subset (g : WaitsFor) (v : TxnId) :
    ∀ x ∈ nodesOf (RemoveAllAboutAbortTxn g v), x ∈ nodesOf g := by
  intro x hx
  simp only [nodesOf, RemoveAllAboutAbortTxn, List.mem_append] at hx ⊢
  rcases hx with hx | hx
  · left
    simp only [List.map_map, List.mem_map] at hx
    rcases hx with ⟨e, he, hfst⟩
    exact List.mem_map.mpr ⟨e, alistErase_subset g v e he, hfst⟩
  · right
    simp only [List.mem_flatMap, List.mem_map] at hx
    rcases hx with ⟨e', ⟨e, he, rfl⟩, hx⟩
    exact List.mem_flatMap.mpr ⟨e, alistErase_subset g v e he, List.mem_of_mem_erase hx⟩

theorem nodeCard_removeAll_le (g : WaitsFor) (v : TxnId) :
    nodeCard (RemoveAllAboutAbortTxn g v) ≤ nodeCard g := by
  refine Finset.card_le_card ?_
  intro x hx
  exact List.mem_toFinset.mpr (nodesOf_removeAll_subset g v x (List.mem_toFinset.mp hx))

theorem alistLookup_insert_self {α β : Type} [DecidableEq α] (l : List (α × β)) (a : α) (b : β) :
    alistLookup (alistInsert l a b) a = some b := by
  induction l with
  | nil => simp [alistInsert, alistLookup]
  | cons e rest ih =>
    rcases e with ⟨k, v⟩
    simp only [alistInsert]
    by_cases hk : k = a
    · rw [if_pos hk]; simp [alistLookup]
    · rw [if_neg hk]; simp only [alistLookup, if_neg hk]; exact ih

theorem alistLookup_insert_ne {α β : Type} [DecidableEq α] (l : List (α × β)) (a x : α) (b : β)
    (hne : x ≠ a) : alistLookup (alistInsert l a b) x = alistLookup l x := by
  induction l with
  | nil =>
    simp only [alistInsert, alistLookup]
    rw [if_neg (fun h => hne h.symm)]
  | cons e rest ih =>
    rcases e with ⟨k, v⟩
    simp only [alistInsert]
    by_cases hk : k = a
    · rw [if_pos hk]
      simp only [alistLookup]
      rw [if_neg (fun h => hne h.symm),
        if_neg (fun h => hne (by rw [hk] at h; exact h.symm))]
    · rw [if_neg hk]
      simp only [alistLookup]
      by_cases hkx : k = x
      · rw [if_pos hkx, if_pos hkx]
      · rw [if_neg hkx, if_neg hkx]
        exact ih

theorem abort_preserved (txns : List (TxnId × TransactionState)) (w x : TxnId)
    (h : alistLookup txns x = some .Aborted) :
    alistLookup (alistInsert txns w .Aborted) x = some .Aborted := by
  by_cases hx : x = w
  · rw [hx]; exact alistLookup_insert_self txns w .Aborted
  · rw [alistLookup_insert_ne txns w x .Aborted hx]; exact h

/-- The inner loop of `RunCycleDetection`: given enough DFS fuel and more
pass fuel than the graph has edges, the pass completes, the final graph
reports no cycle, every victim ends Aborted in the transaction table, and
every victim was reported by `HasCycle` on the then-current graph as the
maximum of a closing DFS path. -/
theorem detectionPass_spec (dfsFuel : Nat) :
    ∀ (passFuel : Nat) (g : WaitsFor) (txns : List (TxnId × TransactionState)),
      nodeCard g < dfsFuel → edgeCount g < passFuel →
      ∃ victims g' txns',
        detectionPass txns passFuel g dfsFuel = some (victims, g', txns') ∧
        HasCycle g' dfsFuel = some none ∧
        (∀ x, alistLookup txns x = some .Aborted → alistLookup txns' x = some .Aborted) ∧
        (∀ v ∈ victims, alistLookup txns' v = some .Aborted) ∧
        (∀ v ∈ victims, ∃ gv S, HasCycle gv dfsFuel = some (some (v, S)) ∧
          v = maxTxnId S ∧ S ≠ [] ∧ StackChain gv S ∧ ∃ c ∈ S, hasEdge gv (S.headD 0) c) := by
  intro passFuel
  induction passFuel with
  | zero => intro g txns _ hb; omega
  | succ passFuel ih =>
    intro g txns hd hb
    cases hcyc : HasCycle g dfsFuel with
    | none => exact absurd hcyc (HasCycle_total g dfsFuel hd)
    | some res =>
      cases res with
      | none =>
        refine ⟨[], g, txns, ?_, hcyc, fun x hx => hx, by simp, by simp⟩
        simp only [detectionPass, hcyc]
      | some p =>
        rcases p with ⟨v, S⟩
        obtain ⟨hvmax, hvS, -, hSne, hchain, hclose⟩ := HasCycle_sound g dfsFuel v S hcyc
        obtain ⟨y, hy⟩ := chain_all_out g S hchain hclose v hvS
        obtain ⟨tl, htl, htlne⟩ := hasEdge_key g v y hy
        have hdec := edgeCount_removeAll_lt g v tl htl htlne
        have hmono := nodeCard_removeAll_le g v
        obtain ⟨victims, g', txns', hpass, hnocyc, hpres, habort, hlasso⟩ :=
          ih (RemoveAllAboutAbortTxn g v) (alistInsert txns v .Aborted)
            (by omega) (by omega)
        refine ⟨v :: victims, g', txns', ?_, hnocyc, ?_, ?_, ?_⟩
        · simp only [detectionPass, hcyc, hpass]
        · intro x hx
          exact hpres x (abort_preserved txns v x hx)
        · intro w hw
          rcases List.mem_cons.mp hw with rfl | hw
          · exact hpres w (alistLookup_insert_self txns w .Aborted)
          · exact habort w hw
        · intro w hw
          rcases List.mem_cons.mp hw with rfl | hw
          · exact ⟨g, S, hcyc, hvmax, hSne, hchain, hclose⟩
          · exact hlasso w hw

/-- C8: on each detection pass the transaction ids are scanned in
ascending order (the root list is the sorted permutation of the graph's
keys) with a DFS from each; a reported victim is the largest transaction
id on the DFS path at the moment the cycle closes — a genuine directed
path of the graph whose head has an edge back into it; and the pass
aborts that victim, removes all its edges and repeats until no cycle
remains (given fuel beyond the node and edge counts, which the real loop
always has since its recursion is bounded by the graph). -/
theorem C8_deadlock_detection :
    (∀ l : List TxnId, List.Sorted (fun a b => a ≤ b) (sortTxnIds l) ∧
      List.Perm (sortTxnIds l) l) ∧
    (∀ (g : WaitsFor) (fuel : Nat) (v : TxnId) (S : List TxnId),
      HasCycle g fuel = some (some (v, S)) →
      v = maxTxnId S ∧ v ∈ S ∧ (∀ x ∈ S, x ≤ v) ∧ S ≠ [] ∧ StackChain g S ∧
        ∃ c ∈ S, hasEdge g (S.headD 0) c) ∧
    (∀ (dfsFuel passFuel : Nat) (g : WaitsFor) (txns : List (TxnId × TransactionState)),
      nodeCard g < dfsFuel → edgeCount g < passFuel →
      ∃ victims g' txns',
        detectionPass txns passFuel g dfsFuel = some (victims, g', txns') ∧
        HasCycle g' dfsFuel = some none ∧
        (∀ v ∈ victims, alistLookup txns' v = some TransactionState.Aborted) ∧
        (∀ v ∈ victims, ∃ gv S, HasCycle gv dfsFuel = some (some (v, S)) ∧
          v = maxTxnId S ∧ S ≠ [] ∧ StackChain gv S ∧
          ∃ c ∈ S, hasEdge gv (S.headD 0) c)) :=
  ⟨fun l => ⟨sortTxnIds_sorted l, sortTxnIds_perm l⟩,
   fun g fuel v S h => HasCycle_sound g fuel v S h,
   fun dfsFuel passFuel g txns hd hb => by
     obtain ⟨victims, g', txns', h1, h2, -, h4, h5⟩ :=
       detectionPass_spec dfsFuel passFuel g txns hd hb
     exact ⟨victims, g', txns', h1, h2, h4, h5⟩⟩

/-- Witness for C8 at the two-transaction deadlock `graphC8`. -/
theorem C8_deadlock_detection_witness :
    nodeCard graphC8 < 3 ∧ edgeCount graphC8 < 3 ∧
    (∃ victims g' txns',
      detectionPass txnsC8 3 graphC8 3 = some (victims, g', txns') ∧
      HasCycle g' 3 = some none ∧
      (∀ v ∈ victims, alistLookup txns' v = some TransactionState.Aborted) ∧
      (∀ v ∈ victims, ∃ gv S, HasCycle gv 3 = some (some (v, S)) ∧
        v = maxTxnId S ∧ S ≠ [] ∧ StackChain gv S ∧
        ∃ c ∈ S, hasEdge gv (S.headD 0) c)) :=
  ⟨by decide, by decide,
    C8_deadlock_detection.2.2 3 3 graphC8 txnsC8 (by decide) (by decide)⟩

/-- C1 (code bug): on a tree with `leaf_max_size = 2`,
`internal_max_size = 4`, the workload `opsC1` — whose inserted keys are
pairwise distinct and whose two removes target previously inserted keys 12
and 7, never 13 — has every insert succeed (all return true), yet
`get(13)` afterwards returns nothing: the key inserted with value 130 is
lost.  Mechanism: the leftmost-leaf merge under `remove(12)` rewrites the
parent internal page's slot-0 key to the merged leaf's first key (15);
`insert(13)` later lands below that stale key; the internal merge under
`remove(7)` then copies the sibling's entries wholesale, turning the stale
slot-0 key 15 into a real separator above key 13, which becomes
unreachable. -/
theorem C1_round_trip_lost_key :
    (runOps (BPlusTree.new 0 2 4) opsC1).map
        (fun r => (r.1, r.2.GetValue 13 80, r.2.GetValue 8 80))
      = some ([true, true, true, true, true, true, true, true, true, true, true, true],
              none, some 80) ∧
    TreeOp.ins 13 130 ∈ opsC1 ∧
    TreeOp.rem 13 ∉ opsC1 ∧
    (insertedKeys opsC1).Nodup := by
  refine ⟨rfl, by decide, by decide, by decide⟩

end bustub
